import Mathlib

/-!
Verification development for the `store-things` repository (`src/main.rs`,
the "store" clipping utility).  The Rust program is shallowly embedded:
paths are `String`s, file contents are `List Nat` (bytes), the filesystem
and environment are an explicit `Sys` state, and stateful operations are
state-passing functions returning `Except`/`Outcome`.  The SHA-512 digest
(the `sha2` crate) is modelled by a full FIPS 180-4 implementation over
`Nat` with explicit `% 2 ^ 64` reductions.
-/

set_option maxRecDepth 20000

namespace Store

/-! ## SHA-512 (FIPS 180-4), modelling the `sha2` crate's `Sha512`

Modelled from the spec: the `sha2` crate is an external dependency; the spec
describes it as a "cryptographic hash accumulator (512-bit digest algorithm)"
whose final value is "rendered as a lowercase hexadecimal string".  We embed
the exact FIPS 180-4 SHA-512 function, which is what `sha2::Sha512` computes,
and render the digest exactly as Rust's `format!("{:x}", hash)` does: each of
the 64 digest bytes as two lowercase hex digits (128 hex digits total). -/

/-- 2^64, the word modulus of SHA-512. -/
def M64 : Nat := 2 ^ 64

/-- Right rotation of a 64-bit word (input assumed `< 2^64`). -/
def rotr64 (n x : Nat) : Nat := ((x >>> n) ||| (x <<< (64 - n))) % M64

/-- Logical right shift of a 64-bit word. -/
def shr64 (n x : Nat) : Nat := x >>> n

/-- SHA-512 `Ch` function. -/
def shaCh (x y z : Nat) : Nat := (x &&& y) ^^^ ((x ^^^ (M64 - 1)) &&& z)

/-- SHA-512 `Maj` function. -/
def shaMaj (x y z : Nat) : Nat := (x &&& y) ^^^ (x &&& z) ^^^ (y &&& z)

/-- SHA-512 big Sigma_0. -/
def bSig0 (x : Nat) : Nat := rotr64 28 x ^^^ rotr64 34 x ^^^ rotr64 39 x

/-- SHA-512 big Sigma_1. -/
def bSig1 (x : Nat) : Nat := rotr64 14 x ^^^ rotr64 18 x ^^^ rotr64 41 x

/-- SHA-512 small sigma_0. -/
def sSig0 (x : Nat) : Nat := rotr64 1 x ^^^ rotr64 8 x ^^^ shr64 7 x

/-- SHA-512 small sigma_1. -/
def sSig1 (x : Nat) : Nat := rotr64 19 x ^^^ rotr64 61 x ^^^ shr64 6 x

/-- The 80 SHA-512 round constants (first 64 bits of the fractional parts of
the cube roots of the first 80 primes). -/
def shaK : List Nat := [
  4794697086780616226, 8158064640168781261, 13096744586834688815,
  16840607885511220156, 4131703408338449720, 6480981068601479193,
  10538285296894168987, 12329834152419229976, 15566598209576043074,
  1334009975649890238, 2608012711638119052, 6128411473006802146,
  8268148722764581231, 9286055187155687089, 11230858885718282805,
  13951009754708518548, 16472876342353939154, 17275323862435702243,
  1135362057144423861, 2597628984639134821, 3308224258029322869,
  5365058923640841347, 6679025012923562964, 8573033837759648693,
  10970295158949994411, 12119686244451234320, 12683024718118986047,
  13788192230050041572, 14330467153632333762, 15395433587784984357,
  489312712824947311, 1452737877330783856, 2861767655752347644,
  3322285676063803686, 5560940570517711597, 5996557281743188959,
  7280758554555802590, 8532644243296465576, 9350256976987008742,
  10552545826968843579, 11727347734174303076, 12113106623233404929,
  14000437183269869457, 14369950271660146224, 15101387698204529176,
  15463397548674623760, 17586052441742319658, 1182934255886127544,
  1847814050463011016, 2177327727835720531, 2830643537854262169,
  3796741975233480872, 4115178125766777443, 5681478168544905931,
  6601373596472566643, 7507060721942968483, 8399075790359081724,
  8693463985226723168, 9568029438360202098, 10144078919501101548,
  10430055236837252648, 11840083180663258601, 13761210420658862357,
  14299343276471374635, 14566680578165727644, 15097957966210449927,
  16922976911328602910, 17689382322260857208, 500013540394364858,
  748580250866718886, 1242879168328830382, 1977374033974150939,
  2944078676154940804, 3659926193048069267, 4368137639120453308,
  4836135668995329356, 5532061633213252278, 6448918945643986474,
  6902733635092675308, 7801388544844847127]

/-- The eight 64-bit chaining values of the SHA-512 state. -/
structure Hs where
  a : Nat
  b : Nat
  c : Nat
  d : Nat
  e : Nat
  f : Nat
  g : Nat
  h : Nat
  deriving Repr, DecidableEq

/-- SHA-512 initial hash value (fractional parts of square roots of the
first 8 primes). -/
def shaH0 : Hs :=
  ⟨7640891576956012808, 13503953896175478587, 4354685564936845355,
   11912009170470909681, 5840696475078001361, 11170449401992604703,
   2270897969802886507, 6620516959819538809⟩

/-- One SHA-512 round; `wk` is the pair (message-schedule word, round constant). -/
def shaRound (s : Hs) (wk : Nat × Nat) : Hs :=
  let t1 := (s.h + bSig1 s.e + shaCh s.e s.f s.g + wk.2 + wk.1) % M64
  let t2 := (bSig0 s.a + shaMaj s.a s.b s.c) % M64
  ⟨(t1 + t2) % M64, s.a, s.b, s.c, (s.d + t1) % M64, s.e, s.f, s.g⟩

/-- Worker for `chunksOf`: `cur` is the current chunk (reversed), `k` the
remaining capacity of the current chunk. -/
def chunksGo (n : Nat) : List α → List α → Nat → List (List α)
  | [], cur, _ => if cur.isEmpty then [] else [cur.reverse]
  | x :: xs, cur, 0 => cur.reverse :: chunksGo n xs [x] (n - 1)
  | x :: xs, cur, k + 1 => chunksGo n xs (x :: cur) k

/-- Split a list into chunks of `n` elements (last chunk possibly shorter). -/
def chunksOf (n : Nat) (l : List α) : List (List α) := chunksGo n l [] n

/-- Assemble a big-endian 64-bit word from (up to) 8 bytes. -/
def beWord (bs : List Nat) : Nat := bs.foldl (fun a b => a * 256 + b % 256) 0

/-- Turn a 128-byte block into sixteen big-endian 64-bit words. -/
def beWords (block : List Nat) : List Nat := (chunksOf 8 block).map beWord

/-- One message-schedule extension step; `ws` is the schedule so far, newest
word first. -/
def wStep (ws : List Nat) : Nat :=
  (sSig1 (ws.getD 1 0) + ws.getD 6 0 + sSig0 (ws.getD 14 0) + ws.getD 15 0) % M64

/-- Extend the (reversed) message schedule by `n` words. -/
def extendW : Nat → List Nat → List Nat
  | 0, ws => ws
  | n + 1, ws => extendW n (wStep ws :: ws)

/-- The 80-word SHA-512 message schedule of a 128-byte block. -/
def shaSchedule (block : List Nat) : List Nat :=
  (extendW 64 (beWords block).reverse).reverse

/-- SHA-512 compression function: process one 128-byte block. -/
def shaCompress (s : Hs) (block : List Nat) : Hs :=
  let t := ((shaSchedule block).zip shaK).foldl shaRound s
  ⟨(s.a + t.a) % M64, (s.b + t.b) % M64, (s.c + t.c) % M64, (s.d + t.d) % M64,
   (s.e + t.e) % M64, (s.f + t.f) % M64, (s.g + t.g) % M64, (s.h + t.h) % M64⟩

/-- Big-endian byte rendering of a number, `d` bytes wide. -/
def beBytes : Nat → Nat → List Nat
  | 0, _ => []
  | d + 1, v => beBytes d (v / 256) ++ [v % 256]

/-- SHA-512 padding: append `0x80`, zeros to 112 mod 128, then the bit
length as a 128-bit big-endian integer. -/
def padMsg (m : List Nat) : List Nat :=
  let L := m.length
  let k := (240 - (L + 1) % 128) % 128
  m ++ [0x80] ++ List.replicate k 0 ++ beBytes 16 (8 * L)

/-- SHA-512 of a byte sequence, as the eight-word final state. -/
def sha512Words (m : List Nat) : Hs :=
  (chunksOf 128 (padMsg m)).foldl shaCompress shaH0

/-- Concatenate the eight 64-bit state words into the 512-bit digest value. -/
def digestNat (s : Hs) : Nat :=
  ((((((s.a * M64 + s.b) * M64 + s.c) * M64 + s.d) * M64 + s.e) * M64 + s.f)
    * M64 + s.g) * M64 + s.h

/-- Lowercase hex digit for a value `< 16`. -/
def hexChar (n : Nat) : Char :=
  if n < 10 then Char.ofNat (48 + n) else Char.ofNat (87 + n)

/-- Fixed-width lowercase hexadecimal rendering (`d` digits, big-endian,
leading zeros kept) -- the way Rust's `format!("{:x}", digest)` renders a
`GenericArray` of 64 bytes as 128 nibbles. -/
def toHexPad : Nat → Nat → String
  | 0, _ => ""
  | d + 1, v => (toHexPad d (v / 16)).push (hexChar (v % 16))

/-- The full model of `sha2::Sha512`: digest of a byte sequence rendered as a
128-character lowercase hex string. -/
def sha512Hex (m : List Nat) : String := toHexPad 128 (digestNat (sha512Words m))

/-! ## Paths

Paths are modelled as `String`s (the program converts every path to UTF-8 with
`to_str` anyway).  The helpers below model the `std::path` operations the
program uses: `components`-based comparison (`starts_with`), `file_name`,
`extension`, `set_extension` and `join`. -/

/-- Split a character list at every `'/'` (like `str::split('/')`): the
resulting groups, in order, possibly empty. -/
def splitSlash : List Char → List (List Char)
  | [] => [[]]
  | c :: rest =>
    let r := splitSlash rest
    if c = '/' then [] :: r
    else
      match r with
      | g :: gs => (c :: g) :: gs
      | [] => [[c]]

/-- The components of a path, as `std::path::Path::components` yields them:
a root marker (modelled as `['/']`) for absolute paths, a leading `CurDir`
marker (modelled as `['.']`) when the path starts with `./` or is `"."`,
then the normal components with empty and interior-`.` segments removed. -/
def pathComponents (p : String) : List (List Char) :=
  (if p.data.head? = some '/' then [['/']] else []) ++
    (if p.data.head? = some '.' ∧ (p.data.tail.head? = some '/' ∨ p.data.tail = [])
      then [['.']] else []) ++
    (splitSlash p.data).filter (fun s => decide (s ≠ [] ∧ s ≠ ['.']))

/-- `Path::starts_with`: component-wise, not byte-wise. -/
def pathStartsWith (p q : String) : Bool :=
  (pathComponents q).isPrefixOf (pathComponents p)

/-- `Path::file_name`: the final normal component (`None` for root, `"."`,
`".."` endings). -/
def fileName (p : String) : Option (List Char) :=
  match (pathComponents p).getLast? with
  | some c => if c = ['/'] ∨ c = ['.'] ∨ c = ['.', '.'] then none else some c
  | none => none

/-- The extension of a file name, per Rust's `Path::extension` rule on the
final component: the part after the last `'.'`, unless the only `'.'` is the
leading character (or there is none). -/
def extOf (n : List Char) : Option (List Char) :=
  if n.length - 1 ≤ (n.reverse.takeWhile (fun c => decide (c ≠ '.'))).length then none
  else some (n.reverse.takeWhile (fun c => decide (c ≠ '.'))).reverse

/-- `Path::extension`, applied to the path's file name. -/
def pathExtension (p : String) : Option String :=
  match fileName p with
  | none => none
  | some n => (extOf n).map List.asString

/-- The file stem of a final component: the part before the last `'.'`
under the same rule as `extOf`. -/
def stemOf (n : List Char) : List Char :=
  match extOf n with
  | none => n
  | some e => n.take (n.length - e.length - 1)

/-- Split a path's characters into the leading directory part (up to and
including the last `'/'`) and the final segment after it. -/
def splitName (l : List Char) : List Char × List Char :=
  let n := (l.reverse.takeWhile (fun c => decide (c ≠ '/'))).reverse
  (l.take (l.length - n.length), n)

/-- `PathBuf::set_extension`: replace the extension of the final segment
(`ext = ""` removes it).  Faithful for paths whose final segment is a
nonempty normal name, which is the case at the only call site (the final
segment there is a 128-character hex digest). -/
def setExtension (p : String) (ext : String) : String :=
  let dn := splitName p.data
  ⟨dn.1 ++ stemOf dn.2 ++ (if ext.data.isEmpty then [] else '.' :: ext.data)⟩

/-- `PathBuf::join` / `push` for a relative or absolute second argument. -/
def pathJoin (d n : String) : String :=
  if n.data.head? = some '/' then n
  else if d.data.isEmpty then n
  else if d.data.getLast? = some '/' then ⟨d.data ++ n.data⟩
  else ⟨d.data ++ '/' :: n.data⟩

/-- UTF-8 byte length of a string (Rust's `str::len`). -/
def utf8Len (s : String) : Nat := s.utf8ByteSize

/-- Slicing a string from a byte offset to its end: the value of Rust's
`&s[n..]` *when the offset is in bounds and on a character boundary*.  Rust
panics otherwise; `isBoundary` below is that validity condition, and
`Config.strip_run` models the panic. -/
def sliceBytesFrom (s : String) (n : Nat) : String :=
  s.extract ⟨n⟩ s.endPos

/-- Whether byte offset `n` is a character boundary of the character list
`m` (the total byte length counts as one): `str::is_char_boundary`, the
validity condition of Rust's slice `&s[n..]`, which panics when it fails --
in particular whenever `n` exceeds the byte length of `m`. -/
def isBoundary : List Char → Nat → Bool
  | _, 0 => true
  | [], _ + 1 => false
  | c :: cs, n + 1 =>
    if Char.utf8Size c ≤ n + 1 then isBoundary cs (n + 1 - Char.utf8Size c) else false

/-- `str::replace(pat, home)` for the single-character pattern `"~"`, which
is how `expand_user` uses it: every occurrence of `'~'` is replaced by the
home string. -/
def expandTilde (home : List Char) : List Char → List Char
  | [] => []
  | c :: cs => if c = '~' then home ++ expandTilde home cs else c :: expandTilde home cs

/-! ## Filesystem and environment state -/

/-- Error values.  The program uses `anyhow`; the constructors record which
failure site produced the error (the `bail!`/`context` message family). -/
inductive Err where
  /-- `bail!("The path `{:?}` does not exist", path)` -/
  | notFound (p : String)
  /-- `bail!("The path `{:?}` is not a file", path)` -/
  | notAFile (p : String)
  /-- an underlying `std::io` error propagated with `?` -/
  | ioError (site : String)
  /-- an error produced or wrapped by `.context(msg)` / `bail!(msg)` -/
  | context (msg : String)
  deriving Repr, DecidableEq

/-- Result of running a program fragment: `ok`, an `anyhow` error, or a
Rust panic (from an `unwrap()`). -/
inductive Outcome (α : Type) where
  | ok : α → Outcome α
  | err : Err → Outcome α
  | panicked : Outcome α
  deriving Repr, DecidableEq

instance decEqExcept {ε α : Type} [DecidableEq ε] [DecidableEq α] :
    DecidableEq (Except ε α) := fun a b =>
  match a, b with
  | .error e1, .error e2 =>
    if h : e1 = e2 then isTrue (by rw [h]) else isFalse (fun hc => h (Except.error.inj hc))
  | .error _, .ok _ => isFalse (fun hc => Except.noConfusion hc)
  | .ok _, .error _ => isFalse (fun hc => Except.noConfusion hc)
  | .ok v1, .ok v2 =>
    if h : v1 = v2 then isTrue (by rw [h]) else isFalse (fun hc => h (Except.ok.inj hc))

/-- A regular file as the program can observe it.

* `content` is the file's byte content;
* `reads` is the sequence of results the `BufReader::read` loop in
  `hash_contents` observes: `some chunk` for a successful read returning
  `chunk` (empty = EOF), `none` for a read that returns `Err` (fault
  injection); a fault-free file has `reads = canonicalReads content`;
* `openOk` — whether `File::open` succeeds;
* `copyOk` — whether `std::fs::copy` from this file succeeds;
* `mtime` — modification timestamp (`metadata().modified()`);
* `metadataOk` — whether `metadata()`/`modified()` succeed. -/
structure FileObj where
  content : List Nat
  reads : List (Option (List Nat))
  openOk : Bool
  copyOk : Bool
  mtime : Nat
  metadataOk : Bool
  deriving Repr, DecidableEq, Inhabited

/-- The parsed configuration (`struct Config`). -/
structure Config where
  clippings : String
  strip_dir : Option String
  screenshot_dir : String
  deriving Repr, DecidableEq

/-- The world the program runs against: files (an association list from path
strings to file objects, first match wins), directories, the home directory
(`std::env::home_dir`), directory listings (`read_dir`: for a listed
directory the entries in iteration order, `none` entries being entries whose
retrieval fails), the parse result of `~/.config/store-things/config.toml`
(`none` = unopenable, `some none` = malformed TOML, `some (some c)` = parses
to `c`), and whether spawning/waiting on `wl-copy` succeeds. -/
structure Sys where
  files : List (String × FileObj)
  dirs : List String
  home : Option String
  listings : List (String × List (Option String))
  configToml : Option (Option Config)
  wlOk : Bool
  deriving Repr, DecidableEq

/-- Look up a regular file. -/
def Sys.getFile (s : Sys) (p : String) : Option FileObj :=
  (s.files.find? (fun kv => decide (kv.fst = p))).map (·.snd)

/-- `Path::is_file`. -/
def Sys.isFile (s : Sys) (p : String) : Bool := (s.getFile p).isSome

/-- `Path::is_dir`. -/
def Sys.isDir (s : Sys) (p : String) : Bool := s.dirs.contains p

/-- `Path::exists`. -/
def Sys.pathExists (s : Sys) (p : String) : Bool := s.isFile p || s.isDir p

/-- `read_dir` results for a directory, if listing it succeeds. -/
def Sys.listing (s : Sys) (d : String) : Option (List (Option String)) :=
  (s.listings.find? (fun kv => decide (kv.fst = d))).map (·.snd)

/-! ## The embedded program (`src/main.rs`) -/

/-- `expand_user`: resolve `~` via `home_dir().context("getting home dir")?`
and `str::replace("~", home)`.  The `to_str` conversions always succeed in
the `String` model, and `PathBuf::from_str` is infallible. -/
def expand_user (sys : Sys) (path : String) : Except Err String :=
  match sys.home with
  | none => .error (.context "getting home dir")
  | some home => .ok ⟨expandTilde home.data path.data⟩

/-- `Config::get_clippings_dir`. -/
def Config.get_clippings_dir (cfg : Config) (sys : Sys) : Except Err String :=
  expand_user sys cfg.clippings

/-- `Config::get_screenshot_dir`. -/
def Config.get_screenshot_dir (cfg : Config) (sys : Sys) : Except Err String :=
  expand_user sys cfg.screenshot_dir

/-- `Config::strip_prefix`: if `strip_dir` is configured and the path
`starts_with` the expanded prefix (component-wise), cut the prefix's byte
length off the front of the path string; otherwise return the path
unchanged.  This version collapses the panic of the byte slice
`&path[plen..]` into the in-bounds slice; it is used to state properties of
runs that return normally.  The faithful version, with the panic modelled,
is `Config.strip_run` below. -/
def Config.strip_prefix (cfg : Config) (sys : Sys) (path : String) : Except Err String :=
  match cfg.strip_dir with
  | none => .ok path
  | some pre =>
    match expand_user sys pre with
    | .error e => .error e
    | .ok pre2 =>
      if pathStartsWith path pre2 then .ok (sliceBytesFrom path (utf8Len pre2))
      else .ok path

/-- `Config::strip_prefix`, faithfully: the byte slice `&path[plen..]`
panics when the prefix's byte length `plen` is not a character boundary of
the path -- in particular when it exceeds the path's byte length, which is
reachable: a `strip_dir` of `"/s"` followed by extra slashes is still a
component-wise prefix of every stored path under `/s` but can be longer
than the stored path itself. -/
def Config.strip_run (cfg : Config) (sys : Sys) (path : String) : Outcome String :=
  match cfg.strip_dir with
  | none => .ok path
  | some pre =>
    match expand_user sys pre with
    | .error e => .err e
    | .ok pre2 =>
      if pathStartsWith path pre2 then
        if isBoundary path.data (utf8Len pre2) then .ok (sliceBytesFrom path (utf8Len pre2))
        else .panicked
      else .ok path

/-- `~/.config/store-things`. -/
def configDirPath (home : String) : String :=
  pathJoin (pathJoin home ".config") "store-things"

/-- `Config::get`.  `std::env::home_dir().unwrap()` panics when no home
directory is available; otherwise the config directory is probed and
`config.toml` opened and parsed.  The TOML parsing itself is an external
crate; modelled from the spec: "a structured text file with three recognized
keys ... Missing required keys or malformed syntax are load-time failures",
via the pre-parsed `Sys.configToml` field. -/
def Config.get (sys : Sys) : Outcome Config :=
  match sys.home with
  | none => .panicked
  | some home =>
    if sys.isDir (configDirPath home) then
      match sys.configToml with
      | none => .err (.ioError "opening config.toml")
      | some none => .err (.ioError "parsing config.toml")
      | some (some c) => .ok c
    else .err (.context "no configuration found")

/-- The accumulator state of `sha2::Sha512`: extensionally, the bytes fed so
far; `update` appends a chunk, `finalize` hashes them all. -/
abbrev Hasher : Type := List Nat

/-- `Sha512::new()`. -/
def Hasher.new : Hasher := []

/-- `hasher.update(chunk)`. -/
def Hasher.update (hs : Hasher) (chunk : List Nat) : Hasher := hs ++ chunk

/-- `format!("{:x}", hasher.finalize())`. -/
def Hasher.finalizeHex (hs : Hasher) : String := sha512Hex hs

/-- The `while let Ok(cnt) = f.read(&mut buf)` loop of `hash_contents`:
a read error (`none`) exits the loop exactly like EOF (`some []`) -- the
error is *not* propagated. -/
def hashLoop : List (Option (List Nat)) → Hasher → Hasher
  | [], hs => hs
  | none :: _, hs => hs
  | some [] :: _, hs => hs
  | some (b :: c) :: rest, hs => hashLoop rest (hs.update (b :: c))

/-- The read results of a fault-free file: its content in chunks of (at
most) 1024 bytes -- the loop's buffer size -- followed by a zero-byte read
at EOF. -/
def canonicalReads (content : List Nat) : List (Option (List Nat)) :=
  (chunksOf 1024 content).map some ++ [some []]

/-- `hash_contents`: check existence, check regular-file-ness, open, run the
read loop, render the digest. -/
def hash_contents (sys : Sys) (path : String) : Except Err String :=
  if sys.pathExists path = false then .error (.notFound path)
  else if sys.isFile path = false then .error (.notAFile path)
  else if ((sys.getFile path).getD default).openOk = false then .error (.ioError "File::open")
  else .ok (Hasher.finalizeHex (hashLoop ((sys.getFile path).getD default).reads Hasher.new))

/-- `std::fs::create_dir` (used for the clippings directory): fails when
something occupies the path, otherwise records the new directory. -/
def createDir (sys : Sys) (d : String) : Except Err Sys :=
  if sys.isFile d then .error (.context "creating clippings directory")
  else .ok { sys with dirs := d :: sys.dirs }

/-- `std::fs::copy(&path, &target)`: re-reads the source and writes its
bytes to `target` (a fresh, fault-free file object). -/
def copyFile (sys : Sys) (src dst : String) : Except Err Sys :=
  match sys.getFile src with
  | none => .error (.ioError "fs::copy")
  | some f =>
    if f.copyOk = false then .error (.ioError "fs::copy")
    else .ok { sys with
      files := (dst, { f with reads := canonicalReads f.content }) :: sys.files }

/-- `Config::strip_prefix` with errors collapsed (used only to state results
compactly; under an available home directory it never errors). -/
def stripOr (cfg : Config) (sys : Sys) (path : String) : String :=
  match Config.strip_prefix cfg sys path with
  | .ok a => a
  | .error _ => path

/-- `do_add`: hash the source, derive the target
`clippings_dir/<digest>[.<ext>]`, create the clippings directory if absent,
copy unless the target already exists, then invoke `wl-copy` with the
(optionally prefix-stripped) target.  Returns the final state, the `wl-copy`
argument, and the stored path.  This version collapses the byte-slice panic
of `Config::strip_prefix` into the in-bounds slice (so it returns `Except`);
it is used to state properties of runs that return normally.  The faithful
version, with that panic modelled, is `do_add_run` below, and `main` runs
that one.  (The other `unwrap` in `do_add`, `ext.to_str().unwrap()` on a
non-UTF-8 extension, is not expressible in the `String` model.) -/
def do_add (cfg : Config) (sys : Sys) (path : String) : Except Err (Sys × String × String) :=
  match hash_contents sys path with
  | .error e => .error e
  | .ok hash =>
    let extension := (pathExtension path).getD ""
    match Config.get_clippings_dir cfg sys with
    | .error e => .error e
    | .ok clippings_dir =>
      let step1 : Except Err Sys :=
        if sys.isDir clippings_dir = false then createDir sys clippings_dir else .ok sys
      match step1 with
      | .error e => .error e
      | .ok sys1 =>
        let target := setExtension (pathJoin clippings_dir hash) extension
        let step2 : Except Err Sys :=
          if sys1.isFile target then .ok sys1 else copyFile sys1 path target
        match step2 with
        | .error e => .error e
        | .ok sys2 =>
          match Config.strip_prefix cfg sys2 target with
          | .error e => .error e
          | .ok arg => if sys2.wlOk then .ok (sys2, arg, target) else .error (.ioError "wl-copy")

/-- `do_add`, faithfully: identical to `do_add` above except that the byte
slice of `Config::strip_prefix` is modelled by `Config.strip_run`, whose
panic propagates, so the result is an `Outcome`. -/
def do_add_run (cfg : Config) (sys : Sys) (path : String) :
    Outcome (Sys × String × String) :=
  match hash_contents sys path with
  | .error e => .err e
  | .ok hash =>
    match Config.get_clippings_dir cfg sys with
    | .error e => .err e
    | .ok cd =>
      match (if sys.isDir cd = false then createDir sys cd else .ok sys : Except Err Sys) with
      | .error e => .err e
      | .ok sys1 =>
        match (if sys1.isFile (setExtension (pathJoin cd hash) ((pathExtension path).getD ""))
               then .ok sys1
               else copyFile sys1 path (setExtension (pathJoin cd hash) ((pathExtension path).getD ""))
               : Except Err Sys) with
        | .error e => .err e
        | .ok sys2 =>
          match Config.strip_run cfg sys2
              (setExtension (pathJoin cd hash) ((pathExtension path).getD "")) with
          | .panicked => .panicked
          | .err e => .err e
          | .ok arg =>
            if sys2.wlOk
            then .ok (sys2, arg, setExtension (pathJoin cd hash) ((pathExtension path).getD ""))
            else .err (.ioError "wl-copy")

/-- Collect the regular files among `read_dir` entries, in iteration order;
an entry whose retrieval fails (`entry?`) aborts with its error. -/
def collectFiles (sys : Sys) : List (Option String) → Except Err (List String)
  | [] => .ok []
  | none :: _ => .error (.ioError "read_dir entry")
  | some p :: rest =>
    match collectFiles sys rest with
    | .error e => .error e
    | .ok ps => .ok (if sys.isFile p then p :: ps else ps)

/-- The `metadata().unwrap().modified().unwrap()` sort key (only ever
evaluated on paths that were regular files when listed). -/
def mtimeOf (sys : Sys) (p : String) : Nat :=
  ((sys.getFile p).map (·.mtime)).getD 0

/-- Whether the sort key of `p` can be computed without panicking. -/
def metaOk (sys : Sys) (p : String) : Bool :=
  ((sys.getFile p).map (·.metadataOk)).getD true

/-- `files.sort_by_key(|p| p.metadata().unwrap().modified().unwrap())`:
a stable sort by modification time (Rust's sort is stable; modelled with
insertion sort, which is stable). -/
def sortByMtime (sys : Sys) (files : List String) : List String :=
  files.insertionSort (fun a b => mtimeOf sys a ≤ mtimeOf sys b)

/-- `most_recent_file`: expand the directory, list it, keep regular files,
sort by modification time and take the last.  The sort key unwraps
`metadata()`/`modified()`: with two or more files any key failure is hit
during sorting and panics (with a single file the sort performs no
comparison and no key is computed). -/
def most_recent_file (sys : Sys) (dir : String) : Outcome String :=
  match expand_user sys dir with
  | .error e => .err e
  | .ok d =>
    match sys.listing d with
    | none => .err (.context "listing directory")
    | some entries =>
      match collectFiles sys entries with
      | .error e => .err e
      | .ok files =>
        if 2 ≤ files.length ∧ ¬(∀ p ∈ files, metaOk sys p = true) then .panicked
        else
          match (sortByMtime sys files).getLast? with
          | some p => .ok p
          | none => .err (.context "getting last file")

/-- `main`: parse args (modelled as the `--last-screenshot` flag and the
optional positional path), load the configuration, resolve the source path,
and run `do_add` -- in its faithful form `do_add_run`, so that the
byte-slice panic of `Config::strip_prefix` propagates.  Returns the stored
path. -/
def mainRun (sys : Sys) (lastScreenshot : Bool) (pathArg : Option String) : Outcome String :=
  match Config.get sys with
  | .panicked => .panicked
  | .err e => .err e
  | .ok config =>
    let src : Outcome String :=
      if lastScreenshot then
        match Config.get_screenshot_dir config sys with
        | .error e => .err e
        | .ok sd => most_recent_file sys sd
      else
        match pathArg with
        | some p => .ok p
        | none => .err (.context "you should provide a path to store")
    match src with
    | .panicked => .panicked
    | .err e => .err e
    | .ok p =>
      match do_add_run config sys p with
      | .panicked => .panicked
      | .err e => .err e
      | .ok (_, _, t) => .ok t

/-! ## Basic facts about the hex rendering -/

/-- Lowercase hexadecimal digits. -/
def isHexLower (c : Char) : Bool :=
  (decide ('0' ≤ c) && decide (c ≤ '9')) || (decide ('a' ≤ c) && decide (c ≤ 'f'))

theorem data_push (s : String) (c : Char) : (s.push c).data = s.data ++ [c] := rfl

theorem isHexLower_hexChar (m : Nat) (h : m < 16) : isHexLower (hexChar m) = true := by
  interval_cases m <;> decide

theorem toHexPad_length (d v : Nat) : (toHexPad d v).data.length = d := by
  induction d generalizing v with
  | zero => rfl
  | succ d ih =>
    simp only [toHexPad, data_push, List.length_append, List.length_cons,
      List.length_nil, ih]

theorem toHexPad_chars (d v : Nat) : ∀ c ∈ (toHexPad d v).data, isHexLower c = true := by
  induction d generalizing v with
  | zero => intro c hc; simp [toHexPad] at hc
  | succ d ih =>
    intro c hc
    simp only [toHexPad, data_push, List.mem_append, List.mem_singleton] at hc
    rcases hc with hc | hc
    · exact ih _ c hc
    · subst hc; exact isHexLower_hexChar _ (Nat.mod_lt _ (by norm_num))

theorem isHexLower_ne_slash {c : Char} (h : isHexLower c = true) : c ≠ '/' := by
  intro he; subst he; exact absurd h (by decide)

theorem isHexLower_ne_dot {c : Char} (h : isHexLower c = true) : c ≠ '.' := by
  intro he; subst he; exact absurd h (by decide)

theorem sha512Hex_length (m : List Nat) : (sha512Hex m).data.length = 128 :=
  toHexPad_length _ _

theorem sha512Hex_chars (m : List Nat) :
    ∀ c ∈ (sha512Hex m).data, isHexLower c = true :=
  toHexPad_chars _ _

theorem sha512Hex_ne_nil (m : List Nat) : (sha512Hex m).data ≠ [] := by
  intro h
  have := sha512Hex_length m
  rw [h] at this
  simp at this

/-! ## Chunking and the read loop -/

theorem flatten_chunksGo (n : Nat) (l : List α) :
    ∀ cur k, (chunksGo n l cur k).flatten = cur.reverse ++ l := by
  induction l with
  | nil =>
    intro cur k
    by_cases h : cur.isEmpty = true
    · simp [chunksGo, h, List.isEmpty_iff.mp h]
    · simp [chunksGo, h]
  | cons x xs ih =>
    intro cur k
    cases k with
    | zero => simp [chunksGo, ih, List.append_assoc]
    | succ k => simp [chunksGo, ih]

theorem flatten_chunksOf (n : Nat) (l : List α) : (chunksOf n l).flatten = l := by
  simp [chunksOf, flatten_chunksGo]

theorem ne_nil_chunksGo (n : Nat) (l : List α) :
    ∀ cur k, (cur = [] → 0 < k) → ∀ c ∈ chunksGo n l cur k, c ≠ [] := by
  induction l with
  | nil =>
    intro cur k hk c hc
    unfold chunksGo at hc
    by_cases h : cur.isEmpty = true
    · simp [h] at hc
    · rw [if_neg h] at hc
      simp only [List.mem_singleton] at hc
      subst hc
      simp only [ne_eq, List.reverse_eq_nil_iff]
      simpa [List.isEmpty_iff] using h
  | cons x xs ih =>
    intro cur k hk c hc
    cases k with
    | zero =>
      unfold chunksGo at hc
      rcases List.mem_cons.mp hc with rfl | hc
      · have hcur : cur ≠ [] := fun hcc => absurd (hk hcc) (by simp)
        simpa using hcur
      · exact ih _ _ (by simp) c hc
    | succ k =>
      unfold chunksGo at hc
      exact ih _ _ (by simp) c hc

theorem ne_nil_chunksOf (n : Nat) (hn : 0 < n) (l : List α) :
    ∀ c ∈ chunksOf n l, c ≠ [] :=
  ne_nil_chunksGo n l [] n (fun _ => hn)

/-- A fault-free sequence of read results for a file with the given content:
some successful, nonempty reads that concatenate to the content, then EOF. -/
def validTrace (content : List Nat) (reads : List (Option (List Nat))) : Prop :=
  ∃ cs : List (List Nat),
    reads = cs.map some ++ [some []] ∧ cs.flatten = content ∧ ∀ c ∈ cs, c ≠ []

theorem validTrace_canonical (c : List Nat) : validTrace c (canonicalReads c) :=
  ⟨chunksOf 1024 c, rfl, flatten_chunksOf _ _, ne_nil_chunksOf _ (by norm_num) _⟩

theorem hashLoop_run (cs : List (List Nat)) :
    ∀ acc, (∀ c ∈ cs, c ≠ []) → hashLoop (cs.map some ++ [some []]) acc = acc ++ cs.flatten := by
  induction cs with
  | nil => intro acc _; simp [hashLoop]
  | cons c cs ih =>
    intro acc hne
    obtain ⟨b, bs, rfl⟩ := List.exists_cons_of_ne_nil (hne c (by simp))
    have step : hashLoop (((b :: bs) :: cs).map some ++ [some []]) acc
        = hashLoop (cs.map some ++ [some []]) (acc ++ (b :: bs)) := rfl
    rw [step, ih _ (fun d hd => hne d (List.mem_cons_of_mem _ hd))]
    simp [List.append_assoc]

/-! ## Characterizations of `hash_contents` -/

theorem isFile_of_getFile {sys : Sys} {p : String} {f : FileObj}
    (h : sys.getFile p = some f) : sys.isFile p = true := by
  simp [Sys.isFile, h]

theorem hash_contents_of_valid {sys : Sys} {p : String} {f : FileObj}
    (hf : sys.getFile p = some f) (ho : f.openOk = true)
    (ht : validTrace f.content f.reads) :
    hash_contents sys p = .ok (sha512Hex f.content) := by
  obtain ⟨cs, hr, hj, hne⟩ := ht
  have hisf : sys.isFile p = true := isFile_of_getFile hf
  have hpe : sys.pathExists p = true := by simp [Sys.pathExists, hisf]
  simp only [hash_contents, hpe, hisf, hf, Option.getD_some, ho]
  simp only [Bool.true_eq_false, if_false]
  rw [hr, hashLoop_run cs Hasher.new hne, hj]
  rfl

theorem finalizeHex_eq (hs : Hasher) :
    Hasher.finalizeHex hs = toHexPad 128 (digestNat (sha512Words hs)) := rfl

theorem hash_contents_ok_shape {sys : Sys} {p : String} {h : String}
    (H : hash_contents sys p = .ok h) : ∃ v, h = toHexPad 128 v := by
  unfold hash_contents at H
  split at H
  · exact absurd H (by simp)
  · split at H
    · exact absurd H (by simp)
    · split at H
      · exact absurd H (by simp)
      · rw [finalizeHex_eq] at H
        exact ⟨_, (Except.ok.inj H).symm⟩

theorem hash_contents_chars {sys : Sys} {p : String} {h : String}
    (H : hash_contents sys p = .ok h) :
    h.data.length = 128 ∧ ∀ c ∈ h.data, isHexLower c = true := by
  obtain ⟨v, rfl⟩ := hash_contents_ok_shape H
  exact ⟨toHexPad_length _ _, toHexPad_chars _ _⟩

/-! ## `expand_user` and `Config.strip_prefix` lemmas -/

theorem expand_user_eq_of_home {sys1 sys2 : Sys} (h : sys1.home = sys2.home) (x : String) :
    expand_user sys1 x = expand_user sys2 x := by
  unfold expand_user; rw [h]

theorem expand_user_ok_home {sys : Sys} {x cd : String}
    (h : expand_user sys x = .ok cd) : ∃ hm, sys.home = some hm := by
  unfold expand_user at h
  cases hh : sys.home with
  | none => rw [hh] at h; exact absurd h (by simp)
  | some hm => exact ⟨hm, rfl⟩

theorem strip_ok_of_home {cfg : Config} {sys : Sys} {hm : String}
    (h : sys.home = some hm) (x : String) :
    Config.strip_prefix cfg sys x = .ok (stripOr cfg sys x) := by
  unfold stripOr Config.strip_prefix expand_user
  cases cfg.strip_dir with
  | none => rfl
  | some pre =>
    rw [h]
    by_cases hs : pathStartsWith x ⟨expandTilde hm.data pre.data⟩ = true <;> simp [hs]

/-! ## `do_add` structure lemmas -/

theorem isFile_congr {s1 s2 : Sys} (h : s1.files = s2.files) (p : String) :
    s1.isFile p = s2.isFile p := by
  simp [Sys.isFile, Sys.getFile, h]

theorem createDir_parts {sys : Sys} {d : String} {sys1 : Sys}
    (h : createDir sys d = .ok sys1) :
    sys1.home = sys.home ∧ sys1.files = sys.files ∧ sys1.wlOk = sys.wlOk := by
  unfold createDir at h
  split at h
  · exact absurd h (by simp)
  · obtain rfl := Except.ok.inj h
    exact ⟨rfl, rfl, rfl⟩

theorem step1_parts {sys : Sys} {cd : String} {sys1 : Sys}
    (h : (if sys.isDir cd = false then createDir sys cd else Except.ok sys) = .ok sys1) :
    sys1.home = sys.home ∧ sys1.files = sys.files ∧ sys1.wlOk = sys.wlOk := by
  split at h
  · exact createDir_parts h
  · obtain rfl := Except.ok.inj h
    exact ⟨rfl, rfl, rfl⟩

theorem isFile_update_cons {sys : Sys} {dst : String} {f : FileObj} :
    ({ sys with files := (dst, f) :: sys.files } : Sys).isFile dst = true := by
  simp [Sys.isFile, Sys.getFile, List.find?]

theorem step2_parts {sys1 : Sys} {p target : String} {sys2 : Sys}
    (h : (if sys1.isFile target = true then Except.ok sys1 else copyFile sys1 p target)
      = .ok sys2) :
    sys2.home = sys1.home ∧ sys2.wlOk = sys1.wlOk ∧ sys2.isFile target = true ∧
    (sys1.isFile target = true → sys2.files = sys1.files) := by
  split at h
  · rename_i hft
    obtain rfl := Except.ok.inj h
    exact ⟨rfl, rfl, hft, fun _ => rfl⟩
  · rename_i hft
    unfold copyFile at h
    split at h
    · exact absurd h (by simp)
    · split at h
      · exact absurd h (by simp)
      · obtain rfl := Except.ok.inj h
        exact ⟨rfl, rfl, isFile_update_cons, fun hc => absurd hc hft⟩

/-- Everything a successful `do_add` determines: the digest and clippings
directory it used, the shape of the stored path, the `wl-copy` argument as
the prefix-stripped stored path, preservation of the home directory, that
the stored path is a regular file afterwards, and that a pre-existing
target means no write to `files`. -/
theorem do_add_ok_parts {cfg : Config} {sys : Sys} {p : String} {s : Sys} {a t : String}
    (H : do_add cfg sys p = .ok (s, a, t)) :
    ∃ h cd, hash_contents sys p = .ok h ∧
      expand_user sys cfg.clippings = .ok cd ∧
      t = setExtension (pathJoin cd h) ((pathExtension p).getD "") ∧
      Config.strip_prefix cfg s t = .ok a ∧
      s.home = sys.home ∧ s.isFile t = true ∧
      (sys.isFile t = true → s.files = sys.files) := by
  simp only [do_add, Config.get_clippings_dir] at H
  split at H
  · exact absurd H (by simp)
  · rename_i hsh heq1
    split at H
    · exact absurd H (by simp)
    · rename_i cd heq2
      split at H
      · exact absurd H (by simp)
      · rename_i sys1 heq3
        split at H
        · exact absurd H (by simp)
        · rename_i sys2 heq4
          split at H
          · exact absurd H (by simp)
          · rename_i arg heq5
            split at H
            · simp only [Except.ok.injEq, Prod.mk.injEq] at H
              obtain ⟨rfl, rfl, rfl⟩ := H
              obtain ⟨e1h, e1f, _⟩ := step1_parts heq3
              obtain ⟨e2h, _, e2t, e2f⟩ := step2_parts heq4
              refine ⟨hsh, cd, heq1, heq2, rfl, heq5, ?_, e2t, ?_⟩
              · rw [e2h, e1h]
              · intro hfs
                have h1 : sys1.isFile
                    (setExtension (pathJoin cd hsh) ((pathExtension p).getD "")) = true := by
                  rw [isFile_congr e1f]; exact hfs
                rw [e2f h1, e1f]
            · exact absurd H (by simp)

/-- Forward evaluation of `do_add` in the "already present" case: the
digest's target exists, so nothing is written and the pre-existing path is
returned (and handed to `wl-copy` after optional prefix stripping). -/
theorem do_add_skip_eq {cfg : Config} {sys : Sys} {p hsh cd t : String}
    (h1 : hash_contents sys p = .ok hsh)
    (h2 : expand_user sys cfg.clippings = .ok cd)
    (h3 : sys.isDir cd = true)
    (ht : t = setExtension (pathJoin cd hsh) ((pathExtension p).getD ""))
    (h4 : sys.isFile t = true)
    (h5 : sys.wlOk = true) :
    do_add cfg sys p = .ok (sys, stripOr cfg sys t, t) := by
  obtain ⟨hm, hh⟩ := expand_user_ok_home h2
  subst ht
  simp only [do_add, Config.get_clippings_dir, h1, h2, h3]
  rw [if_neg (by simp : ¬(true = false))]
  simp [strip_ok_of_home hh, h4, h5]

/-! ## Shape of stored paths

The stored path is `setExtension (pathJoin cd h) e` with `h` a 128-character
hex digest.  The lemmas below compute its character list and its file
name/extension. -/

theorem takeWhile_append_all {p : α → Bool} {a : List α} (b : List α)
    (h : ∀ x ∈ a, p x = true) : (a ++ b).takeWhile p = a ++ b.takeWhile p := by
  induction a with
  | nil => simp
  | cons x xs ih =>
    simp only [List.cons_append, List.takeWhile_cons, h x (by simp)]
    rw [ih (fun y hy => h y (by simp [hy]))]
    simp

theorem takeWhile_all {p : α → Bool} {a : List α}
    (h : ∀ x ∈ a, p x = true) : a.takeWhile p = a := by
  have := takeWhile_append_all (p := p) [] h
  simpa using this

theorem extOf_no_dot {n : List Char} (hd : ∀ c ∈ n, c ≠ '.') : extOf n = none := by
  unfold extOf
  rw [takeWhile_all (by simp_all)]
  simp [Nat.sub_le]

theorem stemOf_no_dot {n : List Char} (hd : ∀ c ∈ n, c ≠ '.') : stemOf n = n := by
  unfold stemOf
  rw [extOf_no_dot hd]

theorem splitName_append {D n : List Char} (hD : D = [] ∨ D.getLast? = some '/')
    (hn : ∀ c ∈ n, c ≠ '/') : splitName (D ++ n) = (D, n) := by
  have h1 : (D ++ n).reverse.takeWhile (fun c => decide (c ≠ '/')) = n.reverse := by
    rw [List.reverse_append,
      takeWhile_append_all _ (by intro x hx; simpa using hn x (List.mem_reverse.mp hx))]
    have h2 : D.reverse.takeWhile (fun c => decide (c ≠ '/')) = [] := by
      rcases hD with rfl | hD
      · simp
      · rw [← List.head?_reverse] at hD
        cases hr : D.reverse with
        | nil => simp
        | cons x xs =>
          rw [hr] at hD
          obtain rfl : x = '/' := by simpa using hD
          simp [List.takeWhile_cons]
    rw [h2, List.append_nil]
  have h3 : (D ++ n).length - n.length = D.length := by
    simp [List.length_append]
  unfold splitName
  simp only [h1, List.reverse_reverse]
  rw [h3, List.take_left]

theorem setExtension_data {t : String} {D n : List Char} (e : String)
    (hsplit : splitName t.data = (D, n)) (hd : ∀ c ∈ n, c ≠ '.') :
    (setExtension t e).data
      = D ++ n ++ (if e.data.isEmpty then [] else '.' :: e.data) := by
  unfold setExtension
  rw [hsplit]
  simp only [stemOf_no_dot hd, List.append_assoc]

/-- The directory part that `pathJoin` prepends. -/
def dirData (d : List Char) : List Char :=
  if d.isEmpty then [] else if d.getLast? = some '/' then d else d ++ ['/']

theorem pathJoin_data {cd m : String} (hn0 : m.data ≠ [])
    (hnh : m.data.head? ≠ some '/') :
    (pathJoin cd m).data = dirData cd.data ++ m.data := by
  unfold pathJoin dirData
  rw [if_neg hnh]
  by_cases h1 : cd.data.isEmpty = true
  · simp [h1]
  · rw [if_neg h1, if_neg h1]
    by_cases h2 : cd.data.getLast? = some '/'
    · rw [if_pos h2, if_pos h2]
    · rw [if_neg h2, if_neg h2]
      simp

theorem dirData_good (d : List Char) :
    dirData d = [] ∨ (dirData d).getLast? = some '/' := by
  unfold dirData
  by_cases h1 : d.isEmpty = true
  · simp [h1]
  · rw [if_neg h1]
    by_cases h2 : d.getLast? = some '/'
    · rw [if_pos h2]; exact Or.inr h2
    · rw [if_neg h2]
      exact Or.inr (by simp)

/-- A plausible digest-like final segment: nonempty, no separator, no dot. -/
def goodName (n : List Char) : Prop :=
  n ≠ [] ∧ (∀ c ∈ n, c ≠ '/') ∧ (∀ c ∈ n, c ≠ '.')

theorem goodName_of_hex {h : String} (hlen : h.data.length = 128)
    (hx : ∀ c ∈ h.data, isHexLower c = true) : goodName h.data := by
  refine ⟨?_, fun c hc => isHexLower_ne_slash (hx c hc),
    fun c hc => isHexLower_ne_dot (hx c hc)⟩
  intro he
  rw [he] at hlen
  simp at hlen

theorem target_data {cd h : String} (e : String) (hg : goodName h.data) :
    (setExtension (pathJoin cd h) e).data
      = dirData cd.data ++ h.data ++ (if e.data.isEmpty then [] else '.' :: e.data) := by
  obtain ⟨hn0, hns, hnd⟩ := hg
  have hh : h.data.head? ≠ some '/' := by
    cases hd : h.data with
    | nil => simp
    | cons c cs =>
      have : c ≠ '/' := hns c (by simp [hd])
      simpa using this
  have hj := @pathJoin_data cd h hn0 hh
  exact setExtension_data e (by rw [hj]; exact splitName_append (dirData_good _) hns) hnd

/-! ## `fileName` and `pathExtension` of stored paths -/

theorem splitSlash_no_slash {m : List Char} (hm : ∀ c ∈ m, c ≠ '/') :
    splitSlash m = [m] := by
  induction m with
  | nil => rfl
  | cons c cs ih =>
    unfold splitSlash
    rw [ih (fun x hx => hm x (by simp [hx]))]
    rw [if_neg (by simpa using hm c (by simp))]

theorem splitSlash_append_last {l m : List Char} (hm : ∀ c ∈ m, c ≠ '/') :
    ∃ X, X ≠ [] ∧ splitSlash (l ++ '/' :: m) = X ++ [m] := by
  induction l with
  | nil =>
    refine ⟨[[]], by simp, ?_⟩
    show splitSlash ('/' :: m) = [[]] ++ [m]
    unfold splitSlash
    rw [splitSlash_no_slash hm]
    simp
  | cons c l ih =>
    obtain ⟨X, hX0, hX⟩ := ih
    by_cases hc : c = '/'
    · subst hc
      refine ⟨[] :: X, by simp, ?_⟩
      show splitSlash ('/' :: (l ++ '/' :: m)) = ([] :: X) ++ [m]
      unfold splitSlash
      rw [hX]
      simp
    · obtain ⟨x0, X', rfl⟩ := List.exists_cons_of_ne_nil hX0
      refine ⟨(c :: x0) :: X', by simp, ?_⟩
      show splitSlash (c :: (l ++ '/' :: m)) = ((c :: x0) :: X') ++ [m]
      unfold splitSlash
      rw [hX, if_neg hc]
      simp

theorem mem_splitSlash_no_slash {l : List Char} :
    ∀ g ∈ splitSlash l, ∀ c ∈ g, c ≠ '/' := by
  induction l with
  | nil =>
    intro g hg
    simp only [splitSlash, List.mem_singleton] at hg
    subst hg
    simp
  | cons x xs ih =>
    intro g hg
    unfold splitSlash at hg
    by_cases hx : x = '/'
    · rw [if_pos hx] at hg
      rcases List.mem_cons.mp hg with rfl | hg
      · simp
      · exact ih g hg
    · rw [if_neg hx] at hg
      cases hs : splitSlash xs with
      | nil =>
        rw [hs] at hg
        simp only [List.mem_singleton] at hg
        subst hg
        intro c hc
        rcases List.mem_cons.mp hc with rfl | hc
        · exact hx
        · simp at hc
      | cons g0 gs =>
        rw [hs] at hg
        rcases List.mem_cons.mp hg with rfl | hg
        · intro c hc
          rcases List.mem_cons.mp hc with rfl | hc
          · exact hx
          · exact ih g0 (by simp [hs]) c hc
        · exact ih g (by simp [hs, hg])

theorem fileName_eq_of_last {p : String} {A : List (List Char)} {m : List Char}
    (hc : pathComponents p = A ++ [m]) (hm : ∀ c ∈ m, c ≠ '/')
    (hm0 : m ≠ []) (hmh : m.head? ≠ some '.') :
    fileName p = some m := by
  unfold fileName
  rw [hc, List.getLast?_concat]
  have h1 : m ≠ ['/'] := by
    intro he
    exact hm '/' (by simp [he]) rfl
  have h2 : m ≠ ['.'] := by
    intro he
    rw [he] at hmh
    simp at hmh
  have h3 : m ≠ ['.', '.'] := by
    intro he
    rw [he] at hmh
    simp at hmh
  show (if m = ['/'] ∨ m = ['.'] ∨ m = ['.', '.'] then none else some m) = some m
  rw [if_neg (by simp [h1, h2, h3])]

theorem filter_concat_pass {X : List (List Char)} {m : List Char}
    (hm0 : m ≠ []) (hmd : m ≠ ['.']) :
    List.filter (fun s => decide (s ≠ [] ∧ s ≠ ['.'])) (X ++ [m])
      = X.filter (fun s => decide (s ≠ [] ∧ s ≠ ['.'])) ++ [m] := by
  rw [List.filter_append]
  congr 1
  have hp : (fun s => decide (s ≠ [] ∧ s ≠ ['.'])) m = true := by
    show decide (m ≠ [] ∧ m ≠ ['.']) = true
    exact decide_eq_true ⟨hm0, hmd⟩
  simp only [List.filter_cons, hp, if_true]
  simp

theorem components_concat {t : String} {l m : List Char}
    (ht : t.data = l ++ '/' :: m) (hm : ∀ c ∈ m, c ≠ '/')
    (hm0 : m ≠ []) (hmd : m ≠ ['.']) :
    ∃ A, pathComponents t = A ++ [m] := by
  obtain ⟨X, hX0, hX⟩ := splitSlash_append_last (l := l) hm
  unfold pathComponents
  rw [ht, hX, filter_concat_pass hm0 hmd]
  exact ⟨_, (List.append_assoc _ _ _).symm⟩

theorem components_no_slash {t : String} {m : List Char}
    (ht : t.data = m) (hm : ∀ c ∈ m, c ≠ '/') (hm0 : m ≠ []) (hmd : m ≠ ['.']) :
    ∃ A, pathComponents t = A ++ [m] := by
  unfold pathComponents
  rw [ht, splitSlash_no_slash hm]
  have hpm : List.filter (fun s => decide (s ≠ [] ∧ s ≠ ['.'])) [m] = [m] := by
    have hp : (fun s => decide (s ≠ [] ∧ s ≠ ['.'])) m = true := by
      show decide (m ≠ [] ∧ m ≠ ['.']) = true
      exact decide_eq_true ⟨hm0, hmd⟩
    simp only [List.filter_cons, hp, if_true]
    simp
  rw [hpm]
  exact ⟨_, rfl⟩

/-- The file name of a stored path `dir ++ name` where `name` is a normal
nonempty segment not beginning with `'.'`. -/
theorem fileName_dir_append {t : String} {D m : List Char}
    (ht : t.data = D ++ m) (hD : D = [] ∨ D.getLast? = some '/')
    (hm : ∀ c ∈ m, c ≠ '/') (hm0 : m ≠ []) (hmh : m.head? ≠ some '.') :
    fileName t = some m := by
  have hmd : m ≠ ['.'] := by
    intro he
    rw [he] at hmh
    simp at hmh
  rcases hD with rfl | hD
  · obtain ⟨A, hA⟩ := components_no_slash (by simpa using ht) hm hm0 hmd
    exact fileName_eq_of_last hA hm hm0 hmh
  · obtain ⟨D', rfl⟩ : ∃ D', D = D' ++ ['/'] := by
      have h0 : D ≠ [] := by
        intro he
        rw [he] at hD
        simp at hD
      refine ⟨D.dropLast, ?_⟩
      have h2 := List.dropLast_append_getLast h0
      have h3 : D.getLast h0 = '/' := by
        have h4 := List.getLast?_eq_getLast D h0
        rw [h4] at hD
        exact Option.some.inj hD
      rw [h3] at h2
      exact h2.symm
    obtain ⟨A, hA⟩ := components_concat (t := t) (by simpa [List.append_assoc] using ht)
      hm hm0 hmd
    exact fileName_eq_of_last hA hm hm0 hmh

theorem mem_of_mem_takeWhile {p : α → Bool} {l : List α} {x : α}
    (h : x ∈ l.takeWhile p) : p x = true ∧ x ∈ l := by
  induction l with
  | nil => simp at h
  | cons y ys ih =>
    rw [List.takeWhile_cons] at h
    by_cases hy : p y = true
    · rw [if_pos hy] at h
      rcases List.mem_cons.mp h with rfl | h
      · exact ⟨hy, by simp⟩
      · obtain ⟨h1, h2⟩ := ih h
        exact ⟨h1, by simp [h2]⟩
    · rw [if_neg hy] at h
      simp at h

theorem extOf_chars {n e : List Char} (h : extOf n = some e) :
    (∀ c ∈ e, c ≠ '.') ∧ (∀ c ∈ e, c ∈ n) := by
  unfold extOf at h
  split at h
  · simp at h
  · obtain rfl := Option.some.inj h
    constructor
    · intro c hc
      have := (mem_of_mem_takeWhile (List.mem_reverse.mp hc)).1
      simpa using this
    · intro c hc
      have := (mem_of_mem_takeWhile (List.mem_reverse.mp hc)).2
      exact List.mem_reverse.mp this

theorem mem_getLast? {l : List α} {a : α} (h : l.getLast? = some a) : a ∈ l := by
  induction l with
  | nil => simp at h
  | cons x xs ih =>
    cases hx : xs with
    | nil =>
      rw [hx] at h
      simp only [List.getLast?_singleton] at h
      simp [Option.some.inj h]
    | cons y ys =>
      rw [hx] at ih h
      rw [List.getLast?_cons_cons] at h
      simp [ih h]

theorem fileName_some_inv {p : String} {n : List Char} (h : fileName p = some n) :
    n ∈ pathComponents p ∧ n ≠ ['/'] ∧ n ≠ ['.'] ∧ n ≠ ['.', '.'] := by
  unfold fileName at h
  cases hl : (pathComponents p).getLast? with
  | none => rw [hl] at h; simp at h
  | some m =>
    rw [hl] at h
    have h2 : (if m = ['/'] ∨ m = ['.'] ∨ m = ['.', '.'] then none else some m)
        = some n := h
    by_cases hm : m = ['/'] ∨ m = ['.'] ∨ m = ['.', '.']
    · rw [if_pos hm] at h2; simp at h2
    · rw [if_neg hm] at h2
      obtain rfl := Option.some.inj h2
      push_neg at hm
      exact ⟨mem_getLast? hl, hm.1, hm.2.1, hm.2.2⟩

theorem fileName_no_slash_chars {p : String} {n : List Char}
    (h : fileName p = some n) : ∀ c ∈ n, c ≠ '/' := by
  obtain ⟨hmem, h1, h2, h3⟩ := fileName_some_inv h
  unfold pathComponents at hmem
  rw [List.mem_append, List.mem_append] at hmem
  rcases hmem with (hr | hlead) | hparts
  · exfalso
    split at hr
    · simp only [List.mem_singleton] at hr
      exact h1 hr
    · simp at hr
  · exfalso
    split at hlead
    · simp only [List.mem_singleton] at hlead
      exact h2 hlead
    · simp at hlead
  · exact mem_splitSlash_no_slash n (List.mem_of_mem_filter hparts)

/-- An extension reported by `pathExtension` contains no `'.'` and no `'/'`. -/
theorem pathExtension_chars {p e : String} (h : pathExtension p = some e) :
    (∀ c ∈ e.data, c ≠ '.') ∧ (∀ c ∈ e.data, c ≠ '/') := by
  unfold pathExtension at h
  cases hf : fileName p with
  | none => rw [hf] at h; simp at h
  | some n =>
    rw [hf] at h
    have h2 : Option.map List.asString (extOf n) = some e := h
    cases hx : extOf n with
    | none => rw [hx] at h2; simp at h2
    | some ed =>
      rw [hx] at h2
      obtain rfl : List.asString ed = e := by simpa using h2
      obtain ⟨hd, hsub⟩ := extOf_chars hx
      have hslash := fileName_no_slash_chars hf
      exact ⟨fun c hc => hd c hc, fun c hc => hslash c (hsub c hc)⟩

theorem data_eq_nil_iff {e : String} : e.data = [] ↔ e = "" := by
  cases e
  simp [String.ext_iff]

theorem head?_ne_dot_of_goodName {h : String} (hg : goodName h.data) :
    h.data.head? ≠ some '.' := by
  obtain ⟨hn0, _, hnd⟩ := hg
  cases hd : h.data with
  | nil => simp
  | cons c cs =>
    have : c ≠ '.' := hnd c (by simp [hd])
    simpa using this

/-- A stored path with empty extension: the file name is exactly the digest
and there is no extension. -/
theorem target_no_ext {cd h : String} (hg : goodName h.data) :
    fileName (setExtension (pathJoin cd h) "") = some h.data ∧
    pathExtension (setExtension (pathJoin cd h) "") = none := by
  obtain ⟨hn0, hns, hnd⟩ := hg
  have hdata : (setExtension (pathJoin cd h) "").data = dirData cd.data ++ h.data := by
    rw [target_data "" ⟨hn0, hns, hnd⟩]
    simp
  have hfn : fileName (setExtension (pathJoin cd h) "") = some h.data :=
    fileName_dir_append hdata (dirData_good _) hns hn0 (head?_ne_dot_of_goodName ⟨hn0, hns, hnd⟩)
  refine ⟨hfn, ?_⟩
  have h2 : pathExtension (setExtension (pathJoin cd h) "")
      = (extOf h.data).map List.asString := by
    unfold pathExtension
    rw [hfn]
  rw [h2, extOf_no_dot hnd]
  rfl

/-- A stored path with a nonempty extension `e` (no dots, no separators):
the extension of the stored path is exactly `e`. -/
theorem target_some_ext {cd h e : String} (hg : goodName h.data)
    (he0 : e.data ≠ []) (hed : ∀ c ∈ e.data, c ≠ '.') (hes : ∀ c ∈ e.data, c ≠ '/') :
    pathExtension (setExtension (pathJoin cd h) e) = some e := by
  obtain ⟨hn0, hns, hnd⟩ := hg
  have hdata : (setExtension (pathJoin cd h) e).data
      = dirData cd.data ++ (h.data ++ '.' :: e.data) := by
    rw [target_data e ⟨hn0, hns, hnd⟩]
    rw [if_neg (by simpa [List.isEmpty_iff] using he0)]
    simp [List.append_assoc]
  have hmns : ∀ c ∈ h.data ++ '.' :: e.data, c ≠ '/' := by
    intro c hc
    rw [List.mem_append] at hc
    rcases hc with hc | hc
    · exact hns c hc
    · rcases List.mem_cons.mp hc with rfl | hc
      · decide
      · exact hes c hc
  have hm0 : h.data ++ '.' :: e.data ≠ [] := by simp
  have hmh : (h.data ++ '.' :: e.data).head? ≠ some '.' := by
    cases hd : h.data with
    | nil => exact absurd hd hn0
    | cons c cs =>
      have : c ≠ '.' := hnd c (by simp [hd])
      simpa using this
  have hfn := fileName_dir_append hdata (dirData_good _) hmns hm0 hmh
  have h2 : pathExtension (setExtension (pathJoin cd h) e)
      = (extOf (h.data ++ '.' :: e.data)).map List.asString := by
    unfold pathExtension
    rw [hfn]
  have hext : extOf (h.data ++ '.' :: e.data) = some e.data := by
    unfold extOf
    have hrev : (h.data ++ '.' :: e.data).reverse
        = e.data.reverse ++ '.' :: h.data.reverse := by
      simp [List.reverse_append, List.append_assoc]
    have htk : List.takeWhile (fun c => decide (c ≠ '.')) ('.' :: h.data.reverse) = [] := by
      simp [List.takeWhile_cons]
    rw [hrev, takeWhile_append_all _
      (by intro x hx; simpa using hed x (List.mem_reverse.mp hx)), htk, List.append_nil]
    have hlen : ¬((h.data ++ '.' :: e.data).length - 1 ≤ e.data.reverse.length) := by
      have hp : 0 < h.data.length := List.length_pos.mpr hn0
      simp only [List.length_append, List.length_cons, List.length_reverse]
      omega
    rw [if_neg hlen, List.reverse_reverse]
  rw [h2, hext]
  cases e
  rfl

/-! ## The digest is a 512-bit quantity: pigeonhole for collisions -/

theorem M64_pos : 0 < M64 := by norm_num [M64]

/-- All eight state words below `2^64`. -/
def Hs.bounded (s : Hs) : Prop :=
  s.a < M64 ∧ s.b < M64 ∧ s.c < M64 ∧ s.d < M64 ∧
  s.e < M64 ∧ s.f < M64 ∧ s.g < M64 ∧ s.h < M64

theorem shaCompress_bounded (s : Hs) (block : List Nat) :
    (shaCompress s block).bounded := by
  refine ⟨?_, ?_, ?_, ?_, ?_, ?_, ?_, ?_⟩ <;> exact Nat.mod_lt _ M64_pos

theorem foldl_compress_bounded (blocks : List (List Nat)) :
    ∀ s : Hs, s.bounded → (blocks.foldl shaCompress s).bounded := by
  induction blocks with
  | nil => intro s hs; exact hs
  | cons b bs ih => intro s _; exact ih _ (shaCompress_bounded s b)

theorem shaH0_bounded : shaH0.bounded := by
  refine ⟨?_, ?_, ?_, ?_, ?_, ?_, ?_, ?_⟩ <;> norm_num [shaH0, M64]

theorem sha512Words_bounded (m : List Nat) : (sha512Words m).bounded :=
  foldl_compress_bounded _ _ shaH0_bounded

theorem digestNat_lt (s : Hs) (hs : s.bounded) : digestNat s < M64 ^ 8 := by
  obtain ⟨h1, h2, h3, h4, h5, h6, h7, h8⟩ := hs
  have step2 : ∀ x y k, x < M64 ^ k → y < M64 → x * M64 + y < M64 ^ (k + 1) := by
    intro x y k hx hy
    calc x * M64 + y < x * M64 + M64 := by omega
    _ = (x + 1) * M64 := by ring
    _ ≤ M64 ^ k * M64 := Nat.mul_le_mul_right _ hx
    _ = M64 ^ (k + 1) := by ring
  exact step2 _ _ 7 (step2 _ _ 6 (step2 _ _ 5 (step2 _ _ 4 (step2 _ _ 3 (step2 _ _ 2
    (step2 _ _ 1 (by simpa [pow_one] using h1) h2) h3) h4) h5) h6) h7) h8

theorem digestNat_sha512_lt (m : List Nat) : digestNat (sha512Words m) < M64 ^ 8 :=
  digestNat_lt _ (sha512Words_bounded m)

/-- Pigeonhole: there exist two different byte contents with the same
SHA-512 hex digest (2^512 digests, infinitely many contents). -/
theorem sha512Hex_collision :
    ∃ c1 c2 : List Nat, c1 ≠ c2 ∧ sha512Hex c1 = sha512Hex c2 := by
  obtain ⟨i, j, hij, heq⟩ := Finite.exists_ne_map_eq_of_infinite
    (fun i : Nat =>
      (⟨digestNat (sha512Words (List.replicate i 0)), digestNat_sha512_lt _⟩ : Fin (M64 ^ 8)))
  refine ⟨List.replicate i 0, List.replicate j 0, ?_, ?_⟩
  · intro he
    apply hij
    have := congrArg List.length he
    simpa using this
  · unfold sha512Hex
    have hv : digestNat (sha512Words (List.replicate i 0))
        = digestNat (sha512Words (List.replicate j 0)) := congrArg Fin.val heq
    rw [hv]

/-! ## Sorting and listing lemmas for `most_recent_file` -/

instance (sys : Sys) : IsTotal String (fun a b => mtimeOf sys a ≤ mtimeOf sys b) :=
  ⟨fun a b => Nat.le_total _ _⟩

instance (sys : Sys) : IsTrans String (fun a b => mtimeOf sys a ≤ mtimeOf sys b) :=
  ⟨fun _ _ _ h1 h2 => le_trans h1 h2⟩

theorem sorted_last_ge {r : α → α → Prop} :
    ∀ {l : List α}, List.Sorted r l → ∀ {q}, l.getLast? = some q →
      ∀ x ∈ l, x = q ∨ r x q := by
  intro l
  induction l with
  | nil => intro _ q hq; simp at hq
  | cons a l ih =>
    intro hs q hq x hx
    cases hl : l with
    | nil =>
      subst hl
      simp only [List.getLast?_singleton] at hq
      obtain rfl := Option.some.inj hq
      simp only [List.mem_singleton] at hx
      exact Or.inl hx
    | cons b l2 =>
      subst hl
      rw [List.getLast?_cons_cons] at hq
      rcases List.mem_cons.mp hx with rfl | hx
      · exact Or.inr (List.rel_of_sorted_cons hs q (mem_getLast? hq))
      · exact ih hs.of_cons hq x hx

theorem collectFiles_mem {sys : Sys} :
    ∀ {es : List (Option String)} {fs : List String}, collectFiles sys es = .ok fs →
      ∀ p ∈ fs, sys.isFile p = true ∧ some p ∈ es := by
  intro es
  induction es with
  | nil =>
    intro fs h p hp
    obtain rfl := Except.ok.inj h
    simp at hp
  | cons e es ih =>
    intro fs h p hp
    cases e with
    | none => exact absurd h (by simp [collectFiles])
    | some q =>
      unfold collectFiles at h
      cases hc : collectFiles sys es with
      | error e2 => rw [hc] at h; exact absurd h (by simp)
      | ok ps =>
        rw [hc] at h
        obtain rfl := Except.ok.inj h
        by_cases hq : sys.isFile q = true
        · rw [if_pos hq] at hp
          rcases List.mem_cons.mp hp with rfl | hp
          · exact ⟨hq, by simp⟩
          · obtain ⟨hf, he⟩ := ih hc p hp
            exact ⟨hf, by simp [he]⟩
        · rw [if_neg hq] at hp
          obtain ⟨hf, he⟩ := ih hc p hp
          exact ⟨hf, by simp [he]⟩

theorem collectFiles_nil_of_none {sys : Sys} :
    ∀ {es : List (Option String)}, (∀ e ∈ es, e ≠ none) →
      (∀ p, some p ∈ es → sys.isFile p = false) → collectFiles sys es = .ok [] := by
  intro es
  induction es with
  | nil => intro _ _; rfl
  | cons e es ih =>
    intro hsome hnof
    cases e with
    | none => exact absurd rfl (hsome none (by simp))
    | some q =>
      unfold collectFiles
      rw [ih (fun x hx => hsome x (by simp [hx])) (fun p hp => hnof p (by simp [hp]))]
      rw [hnof q (by simp)]
      simp

/-! ## Panic analysis -/

theorem metaOk_of_all {sys : Sys}
    (hm : ∀ p f, sys.getFile p = some f → f.metadataOk = true) :
    ∀ p, metaOk sys p = true := by
  intro p
  unfold metaOk
  cases hf : sys.getFile p with
  | none => rfl
  | some f => simpa using hm p f hf

theorem most_recent_no_panic {sys : Sys} {dir : String}
    (hm : ∀ p f, sys.getFile p = some f → f.metadataOk = true) :
    most_recent_file sys dir ≠ .panicked := by
  unfold most_recent_file
  split
  · simp
  · split
    · simp
    · split
      · simp
      · rename_i files hcoll
        have hall : ∀ p ∈ files, metaOk sys p = true := fun p _ => metaOk_of_all hm p
        rw [if_neg (fun hcon => hcon.2 hall)]
        split
        · simp
        · simp

theorem config_get_no_panic {sys : Sys} {hm : String} (h : sys.home = some hm) :
    Config.get sys ≠ .panicked := by
  intro hcon
  simp only [Config.get, h] at hcon
  by_cases hd : sys.isDir (configDirPath hm) = true
  · rw [if_pos hd] at hcon
    cases hc : sys.configToml with
    | none =>
      rw [hc] at hcon
      exact Outcome.noConfusion hcon
    | some c =>
      cases c with
      | none =>
        rw [hc] at hcon
        exact Outcome.noConfusion hcon
      | some c2 =>
        rw [hc] at hcon
        exact Outcome.noConfusion hcon
  · rw [if_neg hd] at hcon
    exact Outcome.noConfusion hcon

/-- A configuration `Config::get` returns is the one parsed from
`config.toml`. -/
theorem config_get_ok_toml {sys : Sys} {c : Config} (h : Config.get sys = .ok c) :
    sys.configToml = some (some c) := by
  unfold Config.get at h
  split at h
  · exact Outcome.noConfusion h
  · split at h
    · split at h
      · exact Outcome.noConfusion h
      · exact Outcome.noConfusion h
      · rename_i c2 heq
        obtain rfl : c2 = c := Outcome.ok.inj h
        exact heq
    · exact Outcome.noConfusion h

/-- With no `strip_dir` configured the byte slice never runs, so
`do_add_run` cannot panic. -/
theorem do_add_run_no_panic {cfg : Config} {sys : Sys} {path : String}
    (hnone : cfg.strip_dir = none) : do_add_run cfg sys path ≠ .panicked := by
  unfold do_add_run
  intro hcon
  split at hcon
  · exact Outcome.noConfusion hcon
  · split at hcon
    · exact Outcome.noConfusion hcon
    · split at hcon
      · exact Outcome.noConfusion hcon
      · split at hcon
        · exact Outcome.noConfusion hcon
        · split at hcon
          · rename_i hsr
            simp only [Config.strip_run, hnone] at hsr
            exact Outcome.noConfusion hsr
          · exact Outcome.noConfusion hcon
          · split at hcon
            · exact Outcome.noConfusion hcon
            · exact Outcome.noConfusion hcon

/-! ## Concrete fixtures -/

/-- A fault-free file with the given content. -/
def mkFile (c : List Nat) : FileObj :=
  { content := c, reads := canonicalReads c, openOk := true, copyOk := true,
    mtime := 0, metadataOk := true }

/-- Clippings at `/s`, no prefix stripping. -/
def cfgStore : Config := { clippings := "/s", strip_dir := none, screenshot_dir := "/scr" }

/-- Clippings at `/s`, stripping the `/s` prefix for the clipboard. -/
def cfgStrip : Config := { clippings := "/s", strip_dir := some "/s", screenshot_dir := "/scr" }

/-- A world with the given regular files, an existing clippings directory
`/s`, a home directory and a working `wl-copy`. -/
def mkSys (files : List (String × FileObj)) : Sys :=
  { files := files, dirs := ["/s"], home := some "/h", listings := [],
    configToml := none, wlOk := true }

/-- A world holding one source file `src` with content `c`. -/
def mkSysSrc (c : List Nat) : Sys := mkSys [("src", mkFile c)]

/-- The stored path `do_add` derives for content `c` under `cfgStore` from a
source with no extension. -/
def targetOf (c : List Nat) : String :=
  setExtension (pathJoin "/s" (sha512Hex c)) ""

/-- The world after `do_add` copied content `c` to its target. -/
def mkSysAfter (c : List Nat) : Sys :=
  { files := [(targetOf c, mkFile c), ("src", mkFile c)], dirs := ["/s"],
    home := some "/h", listings := [], configToml := none, wlOk := true }

/-- Whether a `do_add` result is a success. -/
def addOk (r : Except Err (Sys × String × String)) : Bool :=
  match r with
  | .ok _ => true
  | .error _ => false

/-- The stored path of a successful `do_add` (`""` on error). -/
def addTarget (r : Except Err (Sys × String × String)) : String :=
  match r with
  | .ok (_, _, t) => t
  | .error _ => ""

/-- The `wl-copy` argument of a successful `do_add` (`""` on error). -/
def addArg (r : Except Err (Sys × String × String)) : String :=
  match r with
  | .ok (_, a, _) => a
  | .error _ => ""

theorem targetOf_data (c : List Nat) :
    (targetOf c).data = '/' :: 's' :: '/' :: (sha512Hex c).data := by
  have hg := goodName_of_hex (sha512Hex_length c) (sha512Hex_chars c)
  unfold targetOf
  rw [target_data "" hg]
  simp [dirData]

theorem isFile_src_target (c : List Nat) :
    (mkSysSrc c).isFile (targetOf c) = false := by
  have hne : (fun kv : String × FileObj => decide (kv.fst = targetOf c)) ("src", mkFile c)
      = false := by
    apply decide_eq_false
    intro he
    have hd := congrArg String.data he
    rw [targetOf_data] at hd
    simp at hd
  simp [Sys.isFile, Sys.getFile, mkSysSrc, mkSys, List.find?, hne]

/-- Symbolic evaluation of `do_add` on the one-source world: the file is
hashed, copied to `targetOf c`, and that path is returned and put on the
clipboard. -/
theorem do_add_src (c : List Nat) :
    do_add cfgStore (mkSysSrc c) "src" = .ok (mkSysAfter c, targetOf c, targetOf c) := by
  have hh : hash_contents (mkSysSrc c) "src" = .ok (sha512Hex c) :=
    hash_contents_of_valid (f := mkFile c) rfl rfl (validTrace_canonical c)
  have he : expand_user (mkSysSrc c) cfgStore.clippings = .ok "/s" := rfl
  have hd : (mkSysSrc c).isDir "/s" = true := rfl
  have hext : (pathExtension "src").getD "" = "" := rfl
  have hnf : (mkSysSrc c).isFile (targetOf c) = false := isFile_src_target c
  have hcopy : copyFile (mkSysSrc c) "src" (targetOf c) = .ok (mkSysAfter c) := rfl
  simp only [do_add, Config.get_clippings_dir, hh, he, hd, hext]
  rw [if_neg (by simp : ¬(true = false))]
  have htarg : setExtension (pathJoin "/s" (sha512Hex c)) "" = targetOf c := rfl
  rw [htarg]
  simp only [hnf, Bool.false_eq_true, if_false, hcopy]
  rfl

/-! ## A few last general helpers -/

theorem string_eq_of_data {s t : String} (h : s.data = t.data) : s = t := by
  cases s
  cases t
  exact congrArg String.mk h

theorem append_cancel_left_loc {a b c : List α} (h : a ++ b = a ++ c) : b = c := by
  induction a with
  | nil => simpa using h
  | cons x xs ih => exact ih (by simpa using h)

/-- A successful `hash_contents` implies the file opened. -/
theorem hash_ok_open {sys : Sys} {p : String} {f : FileObj} {h : String}
    (hf : sys.getFile p = some f) (H : hash_contents sys p = .ok h) :
    f.openOk = true := by
  by_cases ho : f.openOk = true
  · exact ho
  · exfalso
    have hisf := isFile_of_getFile hf
    have hpe : sys.pathExists p = true := by simp [Sys.pathExists, hisf]
    simp only [hash_contents, hpe, hisf, hf, Option.getD_some] at H
    simp only [Bool.true_eq_false, if_false] at H
    rw [if_pos (by simpa using ho)] at H
    exact Except.noConfusion H

/-! ## Claim theorems -/

/-- World with the faulty-read file for C3. -/
def fileC3 : FileObj :=
  { content := [1, 2, 9], reads := [some [1, 2], none], openOk := true,
    copyOk := true, mtime := 0, metadataOk := true }

def sysC3 : Sys :=
  { files := [("f", fileC3)], dirs := [], home := some "/h", listings := [],
    configToml := none, wlOk := true }

/-- C3: the claim says `hash_contents` fails with an `IoError` on any read
failure during hashing and succeeds only when the entire content was read.
The code's `while let Ok(cnt) = f.read(&mut buf)` loop treats a read `Err`
exactly like EOF: here the file `f` has content `[1, 2, 9]`, its first read
yields `[1, 2]` and its second read fails, yet `hash_contents` returns
`Ok` with the digest of the partial bytes `[1, 2]` instead of an error.
(The `NotFound`/`NotAFile` parts of the claim do hold; the read-failure part
is contradicted.) -/
theorem C3_read_failure_swallowed :
    hash_contents sysC3 "f" = .ok (sha512Hex [1, 2]) ∧
    (sysC3.getFile "f").map FileObj.content = some [1, 2, 9] :=
  ⟨rfl, rfl⟩

/-- C4: for an existing regular file that opens and reads normally
(`validTrace`: nonempty chunk reads concatenating to the content, then EOF),
`hash_contents` returns exactly the SHA-512 digest of the full content,
rendered as 128 lowercase hexadecimal characters.  The chunked read loop
feeds each chunk into the accumulator, and the digest equals the hash of
the chunks' concatenation.  `hash_contents` takes `Sys` immutably: it has
no side effects in the model. -/
theorem C4_streaming_digest {sys : Sys} {p : String} {f : FileObj}
    (hf : sys.getFile p = some f) (ho : f.openOk = true)
    (ht : validTrace f.content f.reads) :
    hash_contents sys p = .ok (sha512Hex f.content) ∧
    (sha512Hex f.content).data.length = 128 ∧
    ∀ c ∈ (sha512Hex f.content).data, isHexLower c = true :=
  ⟨hash_contents_of_valid hf ho ht, sha512Hex_length _, sha512Hex_chars _⟩

/-- Witness for C4 at a concrete three-byte file. -/
theorem C4_witness :
    (mkSysSrc [1, 2, 3]).getFile "src" = some (mkFile [1, 2, 3]) ∧
    (hash_contents (mkSysSrc [1, 2, 3]) "src" = .ok (sha512Hex [1, 2, 3]) ∧
      (sha512Hex [1, 2, 3]).data.length = 128 ∧
      ∀ c ∈ (sha512Hex [1, 2, 3]).data, isHexLower c = true) :=
  ⟨rfl, C4_streaming_digest (f := mkFile [1, 2, 3]) rfl rfl (validTrace_canonical [1, 2, 3])⟩

/-- C2: when the candidate target path already exists as a file (and the
clippings directory exists and `wl-copy` works), `do_add` performs no write
at all -- the resulting state is exactly the input state, so the stored
object's bytes are unchanged -- the operation succeeds, and the
pre-existing stored path is returned (and handed to `wl-copy` after
optional prefix stripping). -/
theorem C2_already_present {cfg : Config} {sys : Sys} {p hsh cd t : String}
    (h1 : hash_contents sys p = .ok hsh)
    (h2 : expand_user sys cfg.clippings = .ok cd)
    (h3 : sys.isDir cd = true)
    (ht : t = setExtension (pathJoin cd hsh) ((pathExtension p).getD ""))
    (h4 : sys.isFile t = true)
    (h5 : sys.wlOk = true) :
    do_add cfg sys p = .ok (sys, stripOr cfg sys t, t) :=
  do_add_skip_eq h1 h2 h3 ht h4 h5

/-- The SHA-512 digest of the empty content. -/
def hashEmpty : String :=
  "cf83e1357eefb8bdf1542850d66d8007d620e4050b5715dc83f4a921d36ce9ce47d0d13c5d85f2b0ff8318d2877eec2f63b931bd47417a81a538327af927da3e"

/-- The pre-existing stored path for the empty content. -/
def tC2 : String :=
  "/s/cf83e1357eefb8bdf1542850d66d8007d620e4050b5715dc83f4a921d36ce9ce47d0d13c5d85f2b0ff8318d2877eec2f63b931bd47417a81a538327af927da3e"

/-- World for the C2 witness: the empty source file and its stored object
both already present. -/
def sysC2 : Sys :=
  { files := [("src", mkFile []), (tC2, mkFile [])], dirs := ["/s"],
    home := some "/h", listings := [], configToml := none, wlOk := true }

/-- Witness for C2: inserting the empty file while its stored object is
already present returns the pre-existing path with the state unchanged. -/
theorem C2_witness :
    hash_contents sysC2 "src" = .ok hashEmpty ∧ sysC2.isFile tC2 = true ∧
    do_add cfgStore sysC2 "src" = .ok (sysC2, stripOr cfgStore sysC2 tC2, tC2) :=
  ⟨by decide, by decide,
    @C2_already_present cfgStore sysC2 "src" hashEmpty "/s" tC2 (by decide) rfl rfl
      (by decide) (by decide) rfl⟩

/-- C5 (amended): the stored filename preserves every nonempty source
extension unchanged, and a source with no extension stores under exactly
the digest with no extension.  (The amendment: a source whose name ends in
a bare `'.'` -- Rust extension `Some("")` -- is stored with *no* extension,
see the counterexample.) -/
theorem C5_extension_preserved {cfg : Config} {sys : Sys} {p : String}
    {s : Sys} {a t : String} (H : do_add cfg sys p = .ok (s, a, t)) :
    (∀ e, pathExtension p = some e → e ≠ "" → pathExtension t = some e) ∧
    (pathExtension p = none → pathExtension t = none ∧
      ∀ h, hash_contents sys p = .ok h → fileName t = some h.data) := by
  obtain ⟨h, cd, hh, he, ht, _, _, _, _⟩ := do_add_ok_parts H
  obtain ⟨hlen, hhex⟩ := hash_contents_chars hh
  have hg : goodName h.data := goodName_of_hex hlen hhex
  constructor
  · intro e hpe hne
    obtain ⟨hdot, hslash⟩ := pathExtension_chars hpe
    have he0 : e.data ≠ [] := fun hd => hne (data_eq_nil_iff.mp hd)
    rw [ht, hpe]
    show pathExtension (setExtension (pathJoin cd h) e) = some e
    exact target_some_ext hg he0 hdot hslash
  · intro hpe
    rw [ht, hpe]
    constructor
    · exact (target_no_ext hg).2
    · intro h2 hh2
      have heq : h2 = h := by
        rw [hh] at hh2
        exact (Except.ok.inj hh2).symm
      rw [heq]
      exact (target_no_ext hg).1

/-- World with a `foo.` source (Rust extension `Some("")`) for the C5
counterexample. -/
def sysC5 : Sys := mkSys [("foo.", mkFile [3])]

/-- Counterexample to C5 as stated: the source `foo.` has extension
`Some("")` but its stored path has no extension at all -- the original
extension is not preserved unchanged. -/
theorem C5_counterexample :
    pathExtension "foo." = some "" ∧
    addOk (do_add cfgStore sysC5 "foo.") = true ∧
    pathExtension (addTarget (do_add cfgStore sysC5 "foo.")) = none := by
  decide

/-- World with a `a.png` source for the C5 witness. -/
def sysC5w : Sys := mkSys [("a.png", mkFile [7])]

/-- The SHA-512 digest of the one-byte content `[7]`. -/
def hashSeven : String :=
  "365d11a1dfe610b60efa996136d37ab8afd2715b8c6bc2850dc5e6005b702bb9f59b0f306ecb2c43ee44c429967d45843524eb2f7c16aab9bde142ee268b51c6"

/-- Stored path for `a.png` with content `[7]`. -/
def tC5w : String :=
  "/s/365d11a1dfe610b60efa996136d37ab8afd2715b8c6bc2850dc5e6005b702bb9f59b0f306ecb2c43ee44c429967d45843524eb2f7c16aab9bde142ee268b51c6.png"

/-- World after the C5 witness insertion. -/
def resC5w : Sys :=
  { files := [(tC5w, mkFile [7]), ("a.png", mkFile [7])], dirs := ["/s"],
    home := some "/h", listings := [], configToml := none, wlOk := true }

/-- Witness for C5: inserting `a.png` yields a stored path with extension
`png`. -/
theorem C5_witness :
    do_add cfgStore sysC5w "a.png" = .ok (resC5w, tC5w, tC5w) ∧
    pathExtension tC5w = some "png" := by
  have H : do_add cfgStore sysC5w "a.png" = .ok (resC5w, tC5w, tC5w) := by decide
  exact ⟨H, (C5_extension_preserved H).1 "png" (by decide) (by decide)⟩

/-- C1 (amended): inserting the same byte content twice into the same store
-- with sources whose (Rust) extensions agree -- yields the same stored
path, and the second insertion writes nothing: the file table after the
second `do_add` is exactly the one before it.  (The amendment: the stored
path depends on the source file's extension, so "regardless of the source
file names" fails -- see the counterexample -- and equal extensions must be
required.) -/
theorem C1_idempotent_same_extension {cfg : Config} {sys : Sys} {pA pB : String}
    {fA fB : FileObj} {s1 s2 : Sys} {a1 a2 t1 t2 : String}
    (hfA : sys.getFile pA = some fA) (htA : validTrace fA.content fA.reads)
    (H1 : do_add cfg sys pA = .ok (s1, a1, t1))
    (hfB : s1.getFile pB = some fB) (hcB : fB.content = fA.content)
    (htB : validTrace fB.content fB.reads)
    (hext : pathExtension pB = pathExtension pA)
    (H2 : do_add cfg s1 pB = .ok (s2, a2, t2)) :
    t2 = t1 ∧ s2.files = s1.files := by
  obtain ⟨h1, cd1, hh1, he1, ht1, _, hhome1, hisf1, _⟩ := do_add_ok_parts H1
  obtain ⟨h2, cd2, hh2, he2, ht2, _, _, _, hnw2⟩ := do_add_ok_parts H2
  have hoA : fA.openOk = true := hash_ok_open hfA hh1
  have hoB : fB.openOk = true := hash_ok_open hfB hh2
  have hvA := hash_contents_of_valid hfA hoA htA
  have hvB := hash_contents_of_valid hfB hoB htB
  have e1 : h1 = sha512Hex fA.content := by
    rw [hh1] at hvA
    exact Except.ok.inj hvA
  have e2 : h2 = sha512Hex fA.content := by
    rw [hh2] at hvB
    have h3 := Except.ok.inj hvB
    rw [hcB] at h3
    exact h3
  have ecd : cd2 = cd1 := by
    rw [expand_user_eq_of_home hhome1, he1] at he2
    exact (Except.ok.inj he2).symm
  have et : t2 = t1 := by
    rw [ht1, ht2, e1, e2, ecd, hext]
  refine ⟨et, ?_⟩
  apply hnw2
  rw [et]
  exact hisf1

/-- World with two same-content sources under different extensions. -/
def sysC1 : Sys := mkSys [("a.png", mkFile [7]), ("b.txt", mkFile [7])]

/-- Counterexample to C1 as stated: two insertions of identical byte
content whose source names carry different extensions produce two
*different* stored paths -- the stored path is not independent of the
source file name. -/
theorem C1_counterexample :
    addOk (do_add cfgStore sysC1 "a.png") = true ∧
    addOk (do_add cfgStore sysC1 "b.txt") = true ∧
    (sysC1.getFile "a.png").map FileObj.content
      = (sysC1.getFile "b.txt").map FileObj.content ∧
    addTarget (do_add cfgStore sysC1 "a.png")
      ≠ addTarget (do_add cfgStore sysC1 "b.txt") := by
  decide

/-- Witness for C1: inserting `src` (content `[5]`) twice in sequence gives
the same stored path and the second run leaves the file table unchanged. -/
theorem C1_witness :
    do_add cfgStore (mkSysSrc [5]) "src"
      = .ok (mkSysAfter [5], targetOf [5], targetOf [5]) ∧
    do_add cfgStore (mkSysAfter [5]) "src"
      = .ok (mkSysAfter [5], targetOf [5], targetOf [5]) ∧
    (targetOf [5] = targetOf [5] ∧ (mkSysAfter [5]).files = (mkSysAfter [5]).files) := by
  have H1 := do_add_src [5]
  have H2 : do_add cfgStore (mkSysAfter [5]) "src"
      = .ok (mkSysAfter [5], targetOf [5], targetOf [5]) := by decide
  exact ⟨H1, H2,
    @C1_idempotent_same_extension cfgStore (mkSysSrc [5]) "src" "src"
      (mkFile [5]) (mkFile [5]) (mkSysAfter [5]) (mkSysAfter [5])
      (targetOf [5]) (targetOf [5]) (targetOf [5]) (targetOf [5]) rfl
      (validTrace_canonical [5]) H1 (by decide) rfl (validTrace_canonical [5]) rfl H2⟩

/-- C6 (amended): two sources whose contents have *different SHA-512
digests*, inserted into the same store root (same configuration, same home
directory), are stored at different paths.  (The amendment: for contents
that merely differ, a hash collision maps them to the same stored path --
the counterexample derives such a pair by pigeonhole -- so distinct digests
must be required.) -/
theorem C6_digest_separation {cfg : Config} {sysA sysB : Sys} {pA pB : String}
    {fA fB : FileObj} {sA sB : Sys} {aA aB tA tB : String}
    (hhome : sysA.home = sysB.home)
    (hfA : sysA.getFile pA = some fA) (htA : validTrace fA.content fA.reads)
    (hfB : sysB.getFile pB = some fB) (htB : validTrace fB.content fB.reads)
    (hdig : sha512Hex fA.content ≠ sha512Hex fB.content)
    (HA : do_add cfg sysA pA = .ok (sA, aA, tA))
    (HB : do_add cfg sysB pB = .ok (sB, aB, tB)) :
    tA ≠ tB := by
  obtain ⟨h1, cd1, hh1, he1, ht1, _, _, _, _⟩ := do_add_ok_parts HA
  obtain ⟨h2, cd2, hh2, he2, ht2, _, _, _, _⟩ := do_add_ok_parts HB
  have hoA : fA.openOk = true := hash_ok_open hfA hh1
  have hoB : fB.openOk = true := hash_ok_open hfB hh2
  have hvA := hash_contents_of_valid hfA hoA htA
  have hvB := hash_contents_of_valid hfB hoB htB
  have e1 : h1 = sha512Hex fA.content := by
    rw [hh1] at hvA
    exact Except.ok.inj hvA
  have e2 : h2 = sha512Hex fB.content := by
    rw [hh2] at hvB
    exact Except.ok.inj hvB
  have ecd : cd1 = cd2 := by
    rw [expand_user_eq_of_home hhome, he2] at he1
    exact (Except.ok.inj he1).symm
  have hg1 : goodName h1.data := by
    rw [e1]
    exact goodName_of_hex (sha512Hex_length _) (sha512Hex_chars _)
  have hg2 : goodName h2.data := by
    rw [e2]
    exact goodName_of_hex (sha512Hex_length _) (sha512Hex_chars _)
  intro heq
  apply hdig
  rw [ht1, ht2, ecd] at heq
  have hdata := congrArg String.data heq
  rw [target_data _ hg1, target_data _ hg2] at hdata
  rw [List.append_assoc, List.append_assoc] at hdata
  have hd2 := append_cancel_left_loc hdata
  have hlen : h1.data.length = h2.data.length := by
    rw [e1, e2, sha512Hex_length, sha512Hex_length]
  obtain ⟨hdd, _⟩ := List.append_inj hd2 hlen
  rw [← e1, ← e2]
  exact string_eq_of_data hdd

/-- Counterexample to C6 as stated ("different content implies different
stored path", with no digest hypothesis): its universal closure is false.
By pigeonhole (`sha512Hex_collision`) there are two different contents with
the same digest; inserted into identical store roots they yield the *same*
stored path. -/
theorem C6_counterexample :
    ¬ (∀ (cfg : Config) (sysA sysB : Sys) (pA pB : String) (fA fB : FileObj)
        (sA sB : Sys) (aA aB tA tB : String),
        sysA.home = sysB.home →
        sysA.getFile pA = some fA → validTrace fA.content fA.reads →
        sysB.getFile pB = some fB → validTrace fB.content fB.reads →
        fA.content ≠ fB.content →
        do_add cfg sysA pA = .ok (sA, aA, tA) →
        do_add cfg sysB pB = .ok (sB, aB, tB) → tA ≠ tB) := by
  intro hclaim
  obtain ⟨c1, c2, hne, hcol⟩ := sha512Hex_collision
  have htv : targetOf c1 = targetOf c2 := by
    unfold targetOf
    rw [hcol]
  exact hclaim cfgStore (mkSysSrc c1) (mkSysSrc c2) "src" "src" (mkFile c1) (mkFile c2)
    (mkSysAfter c1) (mkSysAfter c2) (targetOf c1) (targetOf c2) (targetOf c1) (targetOf c2)
    rfl rfl (validTrace_canonical c1) rfl (validTrace_canonical c2) hne
    (do_add_src c1) (do_add_src c2) htv

/-- Witness for C6 at the concrete contents `[0]` and `[1]`. -/
theorem C6_witness :
    sha512Hex [0] ≠ sha512Hex [1] ∧ targetOf [0] ≠ targetOf [1] := by
  have hdig : sha512Hex [0] ≠ sha512Hex [1] := by decide
  exact ⟨hdig,
    @C6_digest_separation cfgStore (mkSysSrc [0]) (mkSysSrc [1]) "src" "src"
      (mkFile [0]) (mkFile [1]) (mkSysAfter [0]) (mkSysAfter [1])
      (targetOf [0]) (targetOf [1]) (targetOf [0]) (targetOf [1]) rfl rfl
      (validTrace_canonical [0]) rfl (validTrace_canonical [1]) hdig
      (do_add_src [0]) (do_add_src [1])⟩

/-- C7: in a directory whose regular files have pairwise distinct
modification times (and whose entries and metadata are readable),
`most_recent_file` returns the regular file with the strictly greatest
modification time, chosen among the collected regular files only. -/
theorem C7_most_recent_max {sys : Sys} {dir d : String}
    {entries : List (Option String)} {fs : List String}
    (he : expand_user sys dir = .ok d)
    (hl : sys.listing d = some entries)
    (hc : collectFiles sys entries = .ok fs)
    (hne : fs ≠ [])
    (hmeta : ∀ p ∈ fs, metaOk sys p = true)
    (hdist : fs.Pairwise (fun a b => mtimeOf sys a ≠ mtimeOf sys b)) :
    ∃ p, most_recent_file sys dir = .ok p ∧ sys.isFile p = true ∧ p ∈ fs ∧
      ∀ q ∈ fs, q ≠ p → mtimeOf sys q < mtimeOf sys p := by
  have hsne : sortByMtime sys fs ≠ [] := by
    intro h0
    apply hne
    have hleq := (List.perm_insertionSort
      (fun a b => mtimeOf sys a ≤ mtimeOf sys b) fs).length_eq
    rw [show List.insertionSort (fun a b => mtimeOf sys a ≤ mtimeOf sys b) fs
      = sortByMtime sys fs from rfl, h0] at hleq
    exact List.length_eq_zero.mp hleq.symm
  obtain ⟨q, hq⟩ : ∃ q, (sortByMtime sys fs).getLast? = some q := by
    cases hg : (sortByMtime sys fs).getLast? with
    | none => exact absurd (List.getLast?_eq_none_iff.mp hg) hsne
    | some q => exact ⟨q, rfl⟩
  have hqm : q ∈ fs := (List.mem_insertionSort _).mp (mem_getLast? hq)
  have hsorted := List.sorted_insertionSort
    (fun a b => mtimeOf sys a ≤ mtimeOf sys b) fs
  refine ⟨q, ?_, (collectFiles_mem hc q hqm).1, hqm, ?_⟩
  · unfold most_recent_file
    simp only [he, hl, hc]
    rw [if_neg (fun hcon => hcon.2 hmeta), hq]
  · intro x hx hxq
    have hx2 : x ∈ sortByMtime sys fs := (List.mem_insertionSort _).mpr hx
    rcases sorted_last_ge hsorted hq x hx2 with rfl | hle
    · exact absurd rfl hxq
    · have hsym : Symmetric (fun a b => mtimeOf sys a ≠ mtimeOf sys b) :=
        fun _ _ h => h.symm
      have hne2 : mtimeOf sys x ≠ mtimeOf sys q := hdist.forall hsym hx hqm hxq
      exact lt_of_le_of_ne hle hne2

/-- World with a screenshot-like directory `/d` holding two regular files
of distinct modification times and a subdirectory. -/
def sysDir : Sys :=
  { files := [("/d/a",
      { content := [1], reads := canonicalReads [1], openOk := true,
        copyOk := true, mtime := 1, metadataOk := true }),
     ("/d/b",
      { content := [2], reads := canonicalReads [2], openOk := true,
        copyOk := true, mtime := 5, metadataOk := true })],
    dirs := ["/d", "/d/sub"], home := some "/h",
    listings := [("/d", [some "/d/a", some "/d/b", some "/d/sub"])],
    configToml := none, wlOk := true }

/-- Witness for C7 at a concrete two-file directory. -/
theorem C7_witness :
    collectFiles sysDir [some "/d/a", some "/d/b", some "/d/sub"]
      = .ok ["/d/a", "/d/b"] ∧
    (∃ p, most_recent_file sysDir "/d" = .ok p ∧ sysDir.isFile p = true ∧
      p ∈ ["/d/a", "/d/b"] ∧
      ∀ q ∈ ["/d/a", "/d/b"], q ≠ p → mtimeOf sysDir q < mtimeOf sysDir p) := by
  refine ⟨by decide, ?_⟩
  exact @C7_most_recent_max sysDir "/d" "/d"
    [some "/d/a", some "/d/b", some "/d/sub"] ["/d/a", "/d/b"]
    rfl (by decide) (by decide) (by decide) (by decide) (by decide)

/-- C10: a directory containing no regular files (in particular an empty
directory, or one containing only subdirectories) makes `most_recent_file`
fail with the "getting last file" error rather than return a path; and in
general a successful `most_recent_file` only ever returns a path that is a
regular file -- never a subdirectory entry. -/
theorem C10_no_files_is_error {sys : Sys} {dir d : String}
    {entries : List (Option String)}
    (he : expand_user sys dir = .ok d)
    (hl : sys.listing d = some entries)
    (hsome : ∀ e ∈ entries, e ≠ none)
    (hnof : ∀ p, some p ∈ entries → sys.isFile p = false) :
    most_recent_file sys dir = .err (.context "getting last file") ∧
    ∀ (sys2 : Sys) (dir2 p : String),
      most_recent_file sys2 dir2 = .ok p → sys2.isFile p = true := by
  constructor
  · unfold most_recent_file
    simp only [he, hl, collectFiles_nil_of_none hsome hnof]
    rw [if_neg (by simp)]
    rfl
  · intro sys2 dir2 p hok
    unfold most_recent_file at hok
    split at hok
    · exact Outcome.noConfusion hok
    · split at hok
      · exact Outcome.noConfusion hok
      · split at hok
        · exact Outcome.noConfusion hok
        · rename_i fs hcoll
          split at hok
          · exact Outcome.noConfusion hok
          · split at hok
            · rename_i q hq
              obtain rfl : q = p := Outcome.ok.inj hok
              exact (collectFiles_mem hcoll q
                ((List.mem_insertionSort _).mp (mem_getLast? hq))).1
            · exact Outcome.noConfusion hok

/-- World with a directory `/e` holding only a subdirectory. -/
def sysEmptyDir : Sys :=
  { files := [], dirs := ["/e", "/e/sub"], home := some "/h",
    listings := [("/e", [some "/e/sub"])], configToml := none, wlOk := true }

/-- Witness for C10: a directory with only a subdirectory entry. -/
theorem C10_witness :
    (∀ e ∈ [some "/e/sub"], e ≠ none) ∧
    most_recent_file sysEmptyDir "/e" = .err (.context "getting last file") := by
  refine ⟨by decide, ?_⟩
  exact (@C10_no_files_is_error sysEmptyDir "/e" "/e" [some "/e/sub"] rfl
    (by decide) (by decide)
    (fun p hp => by
      simp only [List.mem_singleton] at hp
      obtain rfl := Option.some.inj hp
      decide)).1

/-- C8: after every successful insertion, the `wl-copy` argument `a` is the
stored path `t` after optional prefix stripping: with no `strip_dir` it is
`t` itself; with `strip_dir` configured and expanding to `pre2`, it is the
byte-length slice `sliceBytesFrom t (utf8Len pre2)` exactly when `t`
`starts_with` `pre2` component-wise, and the unmodified `t` otherwise. -/
theorem C8_clipboard_argument {cfg : Config} {sys : Sys} {p : String}
    {s : Sys} {a t : String} (H : do_add cfg sys p = .ok (s, a, t)) :
    (cfg.strip_dir = none → a = t) ∧
    (∀ pre pre2, cfg.strip_dir = some pre → expand_user sys pre = .ok pre2 →
      a = if pathStartsWith t pre2 = true
          then sliceBytesFrom t (utf8Len pre2) else t) := by
  obtain ⟨h, cd, _, _, _, hstrip, hhome, _, _⟩ := do_add_ok_parts H
  constructor
  · intro hnone
    unfold Config.strip_prefix at hstrip
    rw [hnone] at hstrip
    exact (Except.ok.inj hstrip).symm
  · intro pre pre2 hsome hex2
    unfold Config.strip_prefix at hstrip
    rw [hsome] at hstrip
    have hstrip2 : (match expand_user s pre with
        | .error e => .error e
        | .ok pre3 =>
          if pathStartsWith t pre3 = true then Except.ok (sliceBytesFrom t (utf8Len pre3))
          else Except.ok t) = Except.ok a := hstrip
    rw [expand_user_eq_of_home hhome, hex2] at hstrip2
    have hstrip3 : (if pathStartsWith t pre2 = true
        then Except.ok (sliceBytesFrom t (utf8Len pre2))
        else Except.ok t) = Except.ok a := hstrip2
    by_cases hsw : pathStartsWith t pre2 = true
    · rw [if_pos hsw] at hstrip3
      rw [if_pos hsw]
      exact (Except.ok.inj hstrip3).symm
    · rw [if_neg hsw] at hstrip3
      rw [if_neg hsw]
      exact (Except.ok.inj hstrip3).symm

/-- Witness for C8: with `strip_dir = "/s"`, the stored path `/s/<digest>`
is passed to `wl-copy` with the two prefix bytes sliced off. -/
theorem C8_witness :
    do_add cfgStrip (mkSysSrc [7]) "src"
      = .ok (mkSysAfter [7], sliceBytesFrom (targetOf [7]) (utf8Len "/s"), targetOf [7]) ∧
    sliceBytesFrom (targetOf [7]) (utf8Len "/s")
      = (if pathStartsWith (targetOf [7]) "/s" = true
          then sliceBytesFrom (targetOf [7]) (utf8Len "/s") else targetOf [7]) := by
  have H : do_add cfgStrip (mkSysSrc [7]) "src"
      = .ok (mkSysAfter [7], sliceBytesFrom (targetOf [7]) (utf8Len "/s"), targetOf [7]) := by
    decide
  exact ⟨H, (C8_clipboard_argument H).2 "/s" "/s" rfl rfl⟩

/-- C9 (amended): every failure surfaces as an error value -- the program
does not panic -- *provided* a home directory is available, metadata
retrieval succeeds for the listed files, and the loaded configuration has
no `strip_dir`.  Without those provisos the program panics instead of
erroring (see the counterexample): `Config::get` unwraps `home_dir()`, the
`sort_by_key` in `most_recent_file` unwraps `metadata()`/`modified()`, and
with a `strip_dir` whose expanded form is a component-wise prefix of the
stored path but whose byte length is not a character boundary of it --
e.g. longer than the stored path -- the slice `&path[plen..]` in
`Config::strip_prefix` panics with an index out of bounds.  (`do_add`'s
`ext.to_str().unwrap()` can also panic on non-UTF-8 names, which the
`String`-based model cannot express.) -/
theorem C9_errors_not_panics {sys : Sys}
    (hhome : sys.home ≠ none)
    (hmeta : ∀ p f, sys.getFile p = some f → f.metadataOk = true)
    (hstrip : ∀ c, sys.configToml = some (some c) → c.strip_dir = none) :
    ∀ ls pa, mainRun sys ls pa ≠ .panicked := by
  intro ls pa
  obtain ⟨hm, hh⟩ : ∃ hm, sys.home = some hm := by
    cases hx : sys.home with
    | none => exact absurd hx hhome
    | some v => exact ⟨v, rfl⟩
  unfold mainRun
  cases hcg : Config.get sys with
  | panicked => exact absurd hcg (config_get_no_panic hh)
  | err e => simp [hcg]
  | ok config =>
    simp only [hcg]
    have hnone : config.strip_dir = none := hstrip config (config_get_ok_toml hcg)
    have hsrc : ∀ r : Outcome String, r ≠ .panicked →
        (match r with
          | .panicked => Outcome.panicked (α := String)
          | .err e => .err e
          | .ok p =>
            match do_add_run config sys p with
            | .panicked => .panicked
            | .err e => .err e
            | .ok (_, _, t) => .ok t) ≠ .panicked := by
      intro r hr
      cases r with
      | panicked => exact absurd rfl hr
      | err e => simp
      | ok p =>
        cases hda : do_add_run config sys p with
        | panicked => exact absurd hda (do_add_run_no_panic hnone)
        | err e => simp [hda]
        | ok v =>
          obtain ⟨s2, a2, t2⟩ := v
          simp [hda]
    cases ls with
    | false =>
      cases pa with
      | none =>
        exact hsrc (.err (.context "you should provide a path to store"))
          (fun hcon => Outcome.noConfusion hcon)
      | some p => exact hsrc (.ok p) (fun hcon => Outcome.noConfusion hcon)
    | true =>
      have hexp : Config.get_screenshot_dir config sys
          = .ok ⟨expandTilde hm.data config.screenshot_dir.data⟩ := by
        unfold Config.get_screenshot_dir expand_user
        rw [hh]
      simp only [hexp]
      exact hsrc _ (most_recent_no_panic hmeta)

/-- World with no home directory. -/
def sysNoHome : Sys :=
  { files := [], dirs := [], home := none, listings := [], configToml := none,
    wlOk := true }

/-- Configuration pointing the screenshot directory at `/d`. -/
def cfgScr : Config := { clippings := "/s", strip_dir := none, screenshot_dir := "/d" }

/-- A regular file whose metadata retrieval fails. -/
def badMetaFile : FileObj :=
  { content := [1], reads := canonicalReads [1], openOk := true, copyOk := true,
    mtime := 3, metadataOk := false }

/-- World in which `--last-screenshot` hits a metadata failure during the
sort. -/
def sysBadMeta : Sys :=
  { files := [("/d/a", badMetaFile), ("/d/b", mkFile [2])],
    dirs := [configDirPath "/h", "/d"], home := some "/h",
    listings := [("/d", [some "/d/a", some "/d/b"])],
    configToml := some (some cfgScr), wlOk := true }

/-- Clippings at `/s`, with a `strip_dir` of `"/s"` followed by 130 extra
slashes: its components are still `[/, s]`, so every stored path under `/s`
`starts_with` it, but its byte length is 132 while a stored path
`/s/<128-hex-digest>` has only 131 bytes -- the slice `&path[132..]`
panics. -/
def cfgPanic : Config :=
  { clippings := "/s",
    strip_dir := some "/s//////////////////////////////////////////////////////////////////////////////////////////////////////////////////////////////////",
    screenshot_dir := "/scr" }

/-- World in which storing `src` succeeds up to the clipboard step and then
hits the out-of-bounds byte slice in `Config::strip_prefix`. -/
def sysStripPanic : Sys :=
  { files := [("src", mkFile [5])], dirs := [configDirPath "/h", "/s"],
    home := some "/h", listings := [], configToml := some (some cfgPanic),
    wlOk := true }

/-- Counterexample to C9 as stated: the program can panic instead of
returning an error -- when no home directory is available
(`home_dir().unwrap()` in `Config::get`), when a listed file's metadata
cannot be read (`metadata().unwrap().modified().unwrap()` in
`most_recent_file`'s sort key), and when the configured `strip_dir` is a
component-wise prefix of the stored path whose byte length exceeds the
stored path's (`&path[plen..]` in `Config::strip_prefix`) -- the last with
a home directory available and no metadata involved. -/
theorem C9_counterexample :
    mainRun sysNoHome false (some "x") = .panicked ∧
    mainRun sysBadMeta true none = .panicked ∧
    mainRun sysStripPanic false (some "src") = .panicked := by
  refine ⟨by decide, by decide, by decide⟩

/-- World with a home directory and no files at all. -/
def sysEmptyHome : Sys :=
  { files := [], dirs := [], home := some "/h", listings := [], configToml := none,
    wlOk := true }

/-- Witness for C9: under the amended provisos the run does not panic. -/
theorem C9_witness :
    sysEmptyHome.home ≠ none ∧
    (∀ c, sysEmptyHome.configToml = some (some c) → c.strip_dir = none) ∧
    mainRun sysEmptyHome false none ≠ .panicked :=
  ⟨by decide,
    fun c hc => by simp [sysEmptyHome] at hc,
    C9_errors_not_panics (by decide)
      (fun p f hf => by simp [Sys.getFile, sysEmptyHome, List.find?] at hf)
      (fun c hc => by simp [sysEmptyHome] at hc) false none⟩

end Store
